import Mathlib

/-!
Shallow embedding of the agdex index generation and injection/removal engine
(src/lib/agents-md.ts and src/lib/skills.ts), with theorems checking the
specification claims.

Strings are modelled as lists of characters.  JavaScript string primitives
(indexOf, slice, endsWith, trim, the regexes used by the source) are embedded
with their JavaScript semantics: indexOf returns -1 when absent, slice clamps
negative indices from the end, the whitespace class is the ASCII subset of
the JS \s class (the source only manipulates ASCII whitespace), and
localeCompare is modelled as code-point lexicographic comparison.
-/

set_option maxRecDepth 10000

abbrev Str := List Char

/-- isStart pat s is true when pat is an initial segment of s. -/
def isStart : Str → Str → Bool
  | [], _ => true
  | _ :: _, [] => false
  | a :: as, b :: bs => a = b && isStart as bs

/-- First index at which pat occurs in s (JS indexOf result when found). -/
def firstOcc? (pat : Str) : Str → Option Nat
  | [] => if pat = [] then some 0 else none
  | s@(_ :: t) => if isStart pat s then some 0 else (firstOcc? pat t).map (· + 1)

/-- containsSub pat s: JS s.includes(pat). -/
def containsSub (pat s : Str) : Bool := (firstOcc? pat s).isSome

/-- occursAt pat s i: pat occurs in s starting at index i. -/
def occursAt (pat s : Str) (i : Nat) : Prop := ∃ t, s.drop i = pat ++ t

/-- occursIn pat s: pat is a contiguous substring of s. -/
def occursIn (pat s : Str) : Prop := ∃ i, occursAt pat s i

/-- JS indexOf: -1 when the pattern does not occur. -/
def jsIndexOf (s pat : Str) : Int :=
  match firstOcc? pat s with
  | some i => (i : Int)
  | none => -1

/-- JS indexOf with a fromIndex argument. -/
def jsIndexOfFrom (s pat : Str) (start : Nat) : Int :=
  match firstOcc? pat (s.drop start) with
  | some i => ((i + start : Nat) : Int)
  | none => -1

/-- Clamp a JS slice index: negative counts from the end, then clamp to [0, len]. -/
def jsClamp (len : Nat) (i : Int) : Nat :=
  if i < 0 then ((len : Int) + i).toNat else min i.toNat len

/-- JS s.slice(a, b). -/
def jsSlice (s : Str) (a b : Int) : Str :=
  (s.take (jsClamp s.length b)).drop (jsClamp s.length a)

/-- JS s.slice(a). -/
def jsSliceFrom (s : Str) (a : Int) : Str := s.drop (jsClamp s.length a)

/-- JS s.endsWith(newline). -/
def endsWithNewline (s : Str) : Bool :=
  match s.getLast? with
  | some c => c = '\n'
  | none => false

/-- ASCII subset of the JS whitespace class \s. -/
def isWsChar (c : Char) : Bool :=
  c = ' ' || c = '\t' || c = '\n' || c = '\r' || c = '\x0b' || c = '\x0c'

/-- JS s.trimEnd() (over ASCII whitespace). -/
def trimEnd (s : Str) : Str := (s.reverse.dropWhile isWsChar).reverse

/-- JS s.trim() (over ASCII whitespace). -/
def jsTrim (s : Str) : Str := ((s.dropWhile isWsChar).reverse.dropWhile isWsChar).reverse

/-- Output for one maximal newline run of length k in the collapsing
replace: two newlines when the run has 3 or more, else the run unchanged. -/
def emitNl (k : Nat) : Str := if k ≥ 3 then ['\n', '\n'] else List.replicate k '\n'

/-- Left-to-right scan of the newline-collapsing replace; k is the length of
the pending newline run. -/
def collapseAux : Nat → Str → Str
  | k, [] => emitNl k
  | k, c :: rest =>
    if c = '\n' then collapseAux (k + 1) rest else emitNl k ++ c :: collapseAux 0 rest

/-- JS s.replace(three or more newlines, two newlines): collapse every maximal
run of 3 or more newlines down to exactly 2. -/
def collapseNewlines (s : Str) : Str := collapseAux 0 s

/-- Shared tail of both removal routines: collapse newline runs, trim trailing
whitespace, re-append one newline when content remains. -/
def cleanupAfterRemoval (s : Str) : Str :=
  let t := trimEnd (collapseNewlines s)
  if t = [] then t else t ++ ['\n']

/-! Markers of the docs index block (agents-md.ts). -/

def START_MARKER_PREFIX : Str := "<!-- AGENTS-MD-EMBED-START".toList

def END_MARKER_PREFIX : Str := "<!-- AGENTS-MD-EMBED-END".toList

def MARKER_SUFFIX : Str := " -->".toList

/-- getStartMarker(providerName?) from agents-md.ts; a JS empty string is
falsy, hence the emptiness test. -/
def getStartMarker : Option Str → Str
  | some name =>
    if name = [] then START_MARKER_PREFIX ++ MARKER_SUFFIX
    else START_MARKER_PREFIX ++ ':' :: (name ++ MARKER_SUFFIX)
  | none => START_MARKER_PREFIX ++ MARKER_SUFFIX

/-- getEndMarker(providerName?) from agents-md.ts. -/
def getEndMarker : Option Str → Str
  | some name =>
    if name = [] then END_MARKER_PREFIX ++ MARKER_SUFFIX
    else END_MARKER_PREFIX ++ ':' :: (name ++ MARKER_SUFFIX)
  | none => END_MARKER_PREFIX ++ MARKER_SUFFIX

/-- hasExistingIndex(content, providerName?) from agents-md.ts: with a truthy
provider name, look for that provider marker, otherwise for any index via the
bare start-marker text. -/
def hasExistingIndex (content : Str) : Option Str → Bool
  | some name =>
    if name = [] then containsSub START_MARKER_PREFIX content
    else containsSub (getStartMarker (some name)) content
  | none => containsSub START_MARKER_PREFIX content

/-- wrapWithMarkers from agents-md.ts. -/
def wrapWithMarkers (content : Str) (p : Option Str) : Str :=
  getStartMarker p ++ '\n' :: (content ++ '\n' :: getEndMarker p)

/-- Generic marker-block injection routine: replace in place when the
detection function fires, otherwise append with the separator rule.  Both
injectIndex and injectSkillsIndex are instances of it. -/
def injectBlock (S E : Str) (hasB : Str → Bool) (c b : Str) : Str :=
  let wrapped := S ++ '\n' :: (b ++ '\n' :: E)
  if hasB c then
    jsSlice c 0 (jsIndexOf c S) ++ wrapped ++ jsSliceFrom c (jsIndexOf c E + (E.length : Int))
  else
    c ++ (if endsWithNewline c then ['\n'] else ['\n', '\n']) ++ wrapped ++ ['\n']

/-- injectIndex(existingContent, indexContent, providerName?) from
agents-md.ts. -/
def injectIndex (existingContent indexContent : Str) (p : Option Str) : Str :=
  if hasExistingIndex existingContent p then
    jsSlice existingContent 0 (jsIndexOf existingContent (getStartMarker p))
      ++ wrapWithMarkers indexContent p
      ++ jsSliceFrom existingContent
          (jsIndexOf existingContent (getEndMarker p) + ((getEndMarker p).length : Int))
  else
    existingContent ++ (if endsWithNewline existingContent then ['\n'] else ['\n', '\n'])
      ++ wrapWithMarkers indexContent p ++ ['\n']

/-- Character class of the provider-capturing regex in the sweep-all removal:
anything except a dash or whitespace. -/
def isProvChar (c : Char) : Bool := !(c = '-' || isWsChar c)

/-- The regex match extracting a provider name from a start-marker text: the
leftmost colon followed by at least one non-dash non-whitespace character,
capturing the maximal such run. -/
def matchProvider : Str → Option Str
  | [] => none
  | ':' :: rest =>
    let cap := rest.takeWhile isProvChar
    if cap = [] then matchProvider rest else some cap
  | _ :: rest => matchProvider rest

/-- One iteration of the sweep-all removal loop in removeDocsIndex: find the
first start-marker text, read the start-marker line through the marker
suffix, extract the provider, and delete through that provider end marker,
or strip just the start-marker portion when the end marker is absent. -/
def sweepStep (result : Str) : Str :=
  match firstOcc? START_MARKER_PREFIX result with
  | none => result
  | some startIdx =>
    let startMarkerEnd : Int := jsIndexOfFrom result MARKER_SUFFIX startIdx + (MARKER_SUFFIX.length : Int)
    let startMarkerContent := jsSlice result (startIdx : Int) startMarkerEnd
    let endMarker := getEndMarker (matchProvider startMarkerContent)
    match firstOcc? endMarker result with
    | some endIdx => jsSlice result 0 (startIdx : Int) ++ jsSliceFrom result ((endIdx : Int) + (endMarker.length : Int))
    | none => jsSlice result 0 (startIdx : Int) ++ jsSliceFrom result startMarkerEnd

/-- The while loop of the sweep-all removal, with explicit fuel; none means
the fuel ran out before the loop guard became false. -/
def sweepLoop : Nat → Str → Option Str
  | 0, result => if containsSub START_MARKER_PREFIX result then none else some result
  | fuel + 1, result =>
    if containsSub START_MARKER_PREFIX result then sweepLoop fuel (sweepStep result)
    else some result

/-- removeDocsIndex(content, providerName?) from agents-md.ts.  The sweep-all
branch is a while loop, so it takes explicit fuel; the provider-specific
branch is loop-free and always terminates. -/
def removeDocsIndexFuel (fuel : Nat) (content : Str) (providerName : Option Str) : Option Str :=
  if hasExistingIndex content providerName then
    let resOpt : Option Str :=
      match providerName with
      | some name =>
        if name = [] then sweepLoop fuel content
        else
          let startMarker := getStartMarker (some name)
          let endMarker := getEndMarker (some name)
          let startIdx := jsIndexOf content startMarker
          let endIdx := jsIndexOf content endMarker + (endMarker.length : Int)
          if startIdx ≠ -1 ∧ endIdx > startIdx then
            some (jsSlice content 0 startIdx ++ jsSliceFrom content endIdx)
          else some content
      | none => sweepLoop fuel content
    resOpt.map cleanupAfterRemoval
  else some content

/-! Skills index block (skills.ts). -/

def SKILLS_START_MARKER : Str := "<!-- AGENTS-MD-SKILLS-START -->".toList

def SKILLS_END_MARKER : Str := "<!-- AGENTS-MD-SKILLS-END -->".toList

/-- hasExistingSkillsIndex(content) from skills.ts. -/
def hasExistingSkillsIndex (content : Str) : Bool := containsSub SKILLS_START_MARKER content

/-- injectSkillsIndex(existingContent, indexContent) from skills.ts. -/
def injectSkillsIndex (existingContent indexContent : Str) : Str :=
  if hasExistingSkillsIndex existingContent then
    jsSlice existingContent 0 (jsIndexOf existingContent SKILLS_START_MARKER)
      ++ (SKILLS_START_MARKER ++ '\n' :: (indexContent ++ '\n' :: SKILLS_END_MARKER))
      ++ jsSliceFrom existingContent
          (jsIndexOf existingContent SKILLS_END_MARKER + (SKILLS_END_MARKER.length : Int))
  else
    existingContent ++ (if endsWithNewline existingContent then ['\n'] else ['\n', '\n'])
      ++ (SKILLS_START_MARKER ++ '\n' :: (indexContent ++ '\n' :: SKILLS_END_MARKER)) ++ ['\n']

/-- removeSkillsIndex(content) from skills.ts. -/
def removeSkillsIndex (content : Str) : Str :=
  if hasExistingSkillsIndex content then
    cleanupAfterRemoval
      (jsSlice content 0 (jsIndexOf content SKILLS_START_MARKER)
        ++ jsSliceFrom content (jsIndexOf content SKILLS_END_MARKER + (SKILLS_END_MARKER.length : Int)))
  else content

/-! Frontmatter parser (skills.ts parseSkillFrontmatter). -/

structure SkillFrontmatter where
  name : Str
  description : Str
deriving DecidableEq

/-- Split a character list at every occurrence of a separator character;
empty segments are kept, mirroring JS String.prototype.split. -/
def splitOnChar (sep : Char) : Str → List Str
  | [] => [[]]
  | c :: rest =>
    match splitOnChar sep rest with
    | [] => if c = sep then [[], []] else [[c]]
    | h :: t => if c = sep then [] :: h :: t else (c :: h) :: t

/-- One backtracking attempt of the frontmatter regex: the whitespace run
after the opening dashes keeps k characters, the next character must be a
newline, and the lazy body group ends at the first later newline-dashes
occurrence. -/
def fmTryK (content : Str) (k : Nat) : Option Str :=
  if (content.drop (3 + k)).take 1 = ['\n'] then
    let bodyStart := 3 + k + 1
    match firstOcc? "\n---".toList (content.drop bodyStart) with
    | some e => some ((content.drop bodyStart).take e)
    | none => none
  else none

/-- The leading frontmatter regex of parseSkillFrontmatter: three dashes at
the very start, a greedy whitespace run ending in a newline, a lazy body, a
newline and three more dashes.  Backtracking tries the longest whitespace
run first. -/
def extractFrontmatter (content : Str) : Option Str :=
  if content.take 3 = "---".toList then
    let w := ((content.drop 3).takeWhile isWsChar).length
    (List.range (w + 1)).reverse.findSome? (fmTryK content)
  else none

/-- Strip one leading and one trailing single or double quote (the JS
replace of a leading-or-trailing quote, global). -/
def stripQuotes (s : Str) : Str :=
  let s1 := match s with
    | c :: rest => if c = '"' || c = '\'' then rest else s
    | [] => []
  match s1.getLast? with
  | some c => if c = '"' || c = '\'' then s1.dropLast else s1
  | none => s1

/-- Value of the first frontmatter line that starts with the given key text
and has a nonempty remainder, after trimming and quote stripping; the empty
string doubles as the JS falsy initial value when no line matches. -/
def fieldValue (key : Str) (lines : List Str) : Str :=
  match lines with
  | [] => []
  | l :: rest =>
    if isStart key l ∧ l.drop key.length ≠ [] then stripQuotes (jsTrim (l.drop key.length))
    else fieldValue key rest

/-- parseSkillFrontmatter(content) from skills.ts; the two fields start as
the JS falsy empty string and the final check rejects a missing or empty
name or description. -/
def parseSkillFrontmatter (content : Str) : Option SkillFrontmatter :=
  match extractFrontmatter content with
  | none => none
  | some body =>
    if fieldValue ("name:".toList) (splitOnChar '\n' body) = []
        ∨ fieldValue ("description:".toList) (splitOnChar '\n' body) = [] then none
    else some ⟨fieldValue ("name:".toList) (splitOnChar '\n' body),
               fieldValue ("description:".toList) (splitOnChar '\n' body)⟩

/-! Skills entries and the skills index serializer (skills.ts). -/

inductive SkillSource where
  | plugin
  | skillsSh
  | user
  | project
deriving DecidableEq

structure SkillEntry where
  name : Str
  description : Str
  skillMdPath : Str
  siblingFiles : List Str
  source : SkillSource
  pluginName : Option Str
deriving DecidableEq

/-- JS truthiness of the optional pluginName field. -/
def truthyName : Option Str → Bool
  | some l => l ≠ []
  | none => false

/-- Insert a value at the end of the list held at a key, creating the key at
the end on first use; models insertion-ordered JS Map grouping. -/
def upsert (m : List (Str × List SkillEntry)) (k : Str) (v : SkillEntry) :
    List (Str × List SkillEntry) :=
  match m with
  | [] => [(k, [v])]
  | (k', vs) :: rest => if k' = k then (k', vs ++ [v]) :: rest else (k', vs) :: upsert rest k v

/-- State of the grouping pass: plugin groups, skills-sh groups, user
entries, project entries. -/
abbrev GroupAcc :=
  List (Str × List SkillEntry) × List (Str × List SkillEntry) × List SkillEntry × List SkillEntry

/-- One iteration of the grouping loop of generateSkillsIndex: the branch
chain over the entry source; an entry matching no branch is dropped. -/
def groupStep (acc : GroupAcc) (skill : SkillEntry) : GroupAcc :=
  if skill.source = .plugin ∧ truthyName skill.pluginName then
    (upsert acc.1 (skill.pluginName.getD []) skill, acc.2.1, acc.2.2.1, acc.2.2.2)
  else if skill.source = .skillsSh ∧ truthyName skill.pluginName then
    (acc.1, upsert acc.2.1 (skill.pluginName.getD []) skill, acc.2.2.1, acc.2.2.2)
  else if skill.source = .user then
    (acc.1, acc.2.1, acc.2.2.1 ++ [skill], acc.2.2.2)
  else if skill.source = .project then
    (acc.1, acc.2.1, acc.2.2.1, acc.2.2.2 ++ [skill])
  else acc

/-- The grouping pass of generateSkillsIndex: plugin and skills-sh entries
grouped by pluginName in first-encounter order, user and project entries
collected in order. -/
def groupSkills (skills : List SkillEntry) : GroupAcc :=
  skills.foldl groupStep ([], [], [], [])

/-- All entries of the four group collections, in emitted order. -/
def flatten4 (g : GroupAcc) : List SkillEntry :=
  (g.1.map Prod.snd).flatten ++ ((g.2.1.map Prod.snd).flatten ++ (g.2.2.1 ++ g.2.2.2))

/-- Replace every occurrence of a character by a backslash followed by that
character (one JS replace pass of the escaping chain). -/
def escChar (t : Char) : Str → Str
  | [] => []
  | c :: rest => if c = t then '\\' :: c :: escChar t rest else c :: escChar t rest

/-- The escaping chain of formatSkillEntry, in source order: pipe, semicolon,
colon, brackets, braces. -/
def escapeDesc (d : Str) : Str :=
  escChar '\x7d' (escChar '\x7b' (escChar ']' (escChar '[' (escChar ':' (escChar ';' (escChar '|' d))))))

/-- The seven characters escaped in descriptions. -/
def escTargets : List Char := ['|', ';', ':', '[', ']', '\x7b', '\x7d']

/-- Single left-to-right pass inserting a backslash before every escape
target; proved equal to the sequential replace chain. -/
def escOnePass : Str → Str
  | [] => []
  | c :: rest => (if c ∈ escTargets then ['\\', c] else [c]) ++ escOnePass rest

/-- Scan for a character of ts not immediately preceded by a backslash; prev
is the previous character. -/
def unescapedFreeAux (ts : List Char) : Option Char → Str → Bool
  | _, [] => true
  | prev, c :: rest =>
    (if c ∈ ts then prev == some '\\' else true) && unescapedFreeAux ts (some c) rest

/-- Every occurrence of a character of ts is immediately preceded by a
backslash. -/
def unescapedFree (ts : List Char) (s : Str) : Bool := unescapedFreeAux ts none s

/-- Join string segments with a separator string (JS Array.prototype.join). -/
def joinSep (sep : Str) : List Str → Str
  | [] => []
  | [x] => x
  | x :: rest => x ++ sep ++ joinSep sep rest

/-- formatSkillEntry(skill) from skills.ts. -/
def formatSkillEntry (skill : SkillEntry) : Str :=
  let desc := escapeDesc skill.description
  if skill.siblingFiles ≠ [] then
    skill.name ++ ':' :: (desc ++ '[' :: (joinSep [','] skill.siblingFiles ++ [']']))
  else skill.name ++ ':' :: desc

/-- Segment emitted for one plugin group. -/
def pluginSegment (kv : Str × List SkillEntry) : Str :=
  "plugin:".toList ++ kv.1 ++ ':' :: '\x7b' :: (joinSep [';'] (kv.2.map formatSkillEntry) ++ ['\x7d'])

/-- Segment emitted for one skills-sh group. -/
def skillsShSegment (kv : Str × List SkillEntry) : Str :=
  "skills-sh:".toList ++ kv.1 ++ ':' :: '\x7b' :: (joinSep [';'] (kv.2.map formatSkillEntry) ++ ['\x7d'])

/-- generateSkillsIndex(skills, options) from skills.ts. -/
def generateSkillsIndex (skills : List SkillEntry) (regenerateCommand : Option Str) : Str :=
  let (pluginSkills, skillsShSkills, userSkills, projectSkills) := groupSkills skills
  let parts : List Str :=
    ["[Skills Index]".toList]
      ++ pluginSkills.map pluginSegment
      ++ skillsShSkills.map skillsShSegment
      ++ (if userSkills ≠ [] then
            ["user:\x7b".toList ++ joinSep [';'] (userSkills.map formatSkillEntry) ++ ['\x7d']]
          else [])
      ++ (if projectSkills ≠ [] then
            ["project:\x7b".toList ++ joinSep [';'] (projectSkills.map formatSkillEntry) ++ ['\x7d']]
          else [])
      ++ ["Regen: ".toList ++ (match regenerateCommand with
            | some c => if c = [] then "npx agdex skills embed".toList else c
            | none => "npx agdex skills embed".toList)]
  joinSep ['|'] parts

/-! Tree builder (agents-md.ts buildDocTree). -/

structure DocFile where
  relativePath : Str
deriving DecidableEq

inductive DocSection where
  | mk (name : Str) (files : List DocFile) (subsections : List DocSection)

def DocSection.name : DocSection → Str
  | .mk n _ _ => n

def DocSection.files : DocSection → List DocFile
  | .mk _ fs _ => fs

def DocSection.subsections : DocSection → List DocSection
  | .mk _ _ ss => ss

/-- Code-point lexicographic comparison, the embedding of localeCompare. -/
def strLe : Str → Str → Bool
  | [], _ => true
  | _ :: _, [] => false
  | a :: as, b :: bs => if a = b then strLe as bs else decide (a < b)

def fileLe (f g : DocFile) : Bool := strLe f.relativePath g.relativePath

def secLe (a b : DocSection) : Bool := strLe a.name b.name

/-- Find-or-create update of an insertion-ordered association list: apply g
to the value at key k, creating the key at the end with a default first. -/
def updateAssoc (m : List (Str × α)) (k : Str) (d : α) (g : α → α) : List (Str × α) :=
  match m with
  | [] => [(k, g d)]
  | (k', v) :: rest => if k' = k then (k', g v) :: rest else (k', v) :: updateAssoc rest k d g

/-- Lookup in an association list. -/
def assocGet (m : List (Str × α)) (k : Str) : Option α :=
  match m with
  | [] => none
  | (k', v) :: rest => if k' = k then some v else assocGet rest k

structure PreSub where
  files : List DocFile
  subsubs : List (Str × List DocFile)

structure PreSec where
  files : List DocFile
  subs : List (Str × PreSub)

def emptyPreSub : PreSub := ⟨[], []⟩

def emptyPreSec : PreSec := ⟨[], []⟩

/-- Top-level grouping key of a path: the literal dot for root-level files,
else the first path segment. -/
def topKey (f : DocFile) : Str :=
  match splitOnChar '/' f.relativePath with
  | [_] => ['.']
  | a :: _ => a
  | [] => []

/-- Per-file update of one top-level section, following the branch structure
of the buildDocTree loop body. -/
def secAdd (sec : PreSec) (f : DocFile) : PreSec :=
  match splitOnChar '/' f.relativePath with
  | [_] => { sec with files := sec.files ++ [⟨f.relativePath⟩] }
  | [_, _] => { sec with files := sec.files ++ [⟨f.relativePath⟩] }
  | [_, sd, _] =>
    { sec with subs := (updateAssoc sec.subs sd emptyPreSub
        (fun sub => { sub with files := sub.files ++ [⟨f.relativePath⟩] })) }
  | _ :: sd :: ssd :: _ :: _ =>
    { sec with subs := (updateAssoc sec.subs sd emptyPreSub
        (fun sub => { sub with subsubs := (updateAssoc sub.subsubs ssd []
            (fun fs => fs ++ [⟨f.relativePath⟩])) })) }
  | [] => sec

/-- The grouping loop of buildDocTree over one file. -/
def insertDocFile (secs : List (Str × PreSec)) (f : DocFile) : List (Str × PreSec) :=
  updateAssoc secs (topKey f) emptyPreSec (fun sec => secAdd sec f)

/-- buildDocTree(files) from agents-md.ts: group every file by its path
segments into at most three levels, then sort sections, subsections and
sub-subsections by name and file lists by full relative path. -/
def buildDocTree (files : List DocFile) : List DocSection :=
  let secs := files.foldl insertDocFile []
  (secs.map (fun kv =>
    DocSection.mk kv.1 (kv.2.files.mergeSort fileLe)
      ((kv.2.subs.map (fun skv =>
        DocSection.mk skv.1 (skv.2.files.mergeSort fileLe)
          ((skv.2.subsubs.map (fun tkv =>
            DocSection.mk tkv.1 (tkv.2.mergeSort fileLe) [])).mergeSort secLe))).mergeSort secLe))).mergeSort secLe

/-- The three per-level serializers of buildDocTree, named for reasoning. -/
def subsubToSection (tkv : Str × List DocFile) : DocSection :=
  DocSection.mk tkv.1 (tkv.2.mergeSort fileLe) []

def subToSection (skv : Str × PreSub) : DocSection :=
  DocSection.mk skv.1 (skv.2.files.mergeSort fileLe)
    ((skv.2.subsubs.map subsubToSection).mergeSort secLe)

def secToSection (kv : Str × PreSec) : DocSection :=
  DocSection.mk kv.1 (kv.2.files.mergeSort fileLe)
    ((kv.2.subs.map subToSection).mergeSort secLe)

/-- Pointwise lifting of a relation to optional values. -/
def optRel (R : α → α → Prop) : Option α → Option α → Prop
  | none, none => True
  | some a, some b => R a b
  | _, _ => False

/-- Two association lists agree up to R at every key. -/
def mapEquiv (R : α → α → Prop) (m1 m2 : List (Str × α)) : Prop :=
  ∀ k, optRel R (assocGet m1 k) (assocGet m2 k)

/-- Grouping states that differ only in insertion order. -/
def subEquiv (p q : PreSub) : Prop :=
  p.files.Perm q.files ∧ mapEquiv (fun a b => a.Perm b) p.subsubs q.subsubs

def secEquiv (p q : PreSec) : Prop :=
  p.files.Perm q.files ∧ mapEquiv subEquiv p.subs q.subs

/-- Key lists at each nesting level hold no duplicate key. -/
def subWF (p : PreSub) : Prop := (p.subsubs.map Prod.fst).Nodup

def secWF (p : PreSec) : Prop :=
  (p.subs.map Prod.fst).Nodup ∧ ∀ kv ∈ p.subs, subWF kv.2

def secsWF (m : List (Str × PreSec)) : Prop :=
  (m.map Prod.fst).Nodup ∧ ∀ kv ∈ m, secWF kv.2

/-- A list is weakly increasing for a Boolean comparison. -/
def sortedBy (le : α → α → Bool) (l : List α) : Prop :=
  l.Pairwise (fun a b => le a b = true)

/-- The three-level sort discipline of the output tree. -/
def treeSorted (l : List DocSection) : Prop :=
  sortedBy secLe l ∧ ∀ s ∈ l, sortedBy fileLe s.files ∧ sortedBy secLe s.subsections ∧
    ∀ t ∈ s.subsections, sortedBy fileLe t.files ∧ sortedBy secLe t.subsections ∧
      ∀ u ∈ t.subsections, sortedBy fileLe u.files

open List

/-! Occurrence theory for firstOcc?. -/

theorem isStart_iff : ∀ (pat s : Str), isStart pat s = true ↔ ∃ t, s = pat ++ t
  | [], s => by simp [isStart]
  | _ :: _, [] => by simp [isStart]
  | a :: as, b :: bs => by
    simp only [isStart, Bool.and_eq_true, decide_eq_true_eq]
    constructor
    · rintro ⟨rfl, h⟩
      obtain ⟨t, rfl⟩ := (isStart_iff as bs).1 h
      exact ⟨t, rfl⟩
    · rintro ⟨t, h⟩
      rw [List.cons_append] at h
      injection h with h1 h2
      subst h1
      subst h2
      exact ⟨rfl, (isStart_iff as (as ++ t)).2 ⟨t, rfl⟩⟩

theorem occursAt_iff_isStart (pat s : Str) (i : Nat) :
    occursAt pat s i ↔ isStart pat (s.drop i) = true := by
  rw [isStart_iff]
  exact Iff.rfl

theorem occursAt_nil_iff (pat : Str) (q : Nat) : occursAt pat [] q ↔ pat = [] := by
  constructor
  · rintro ⟨t, h⟩
    rw [List.drop_nil] at h
    exact (List.append_eq_nil.1 h.symm).1
  · rintro rfl
    exact ⟨[], by simp⟩

theorem occursAt_cons_succ (pat : Str) (a : Char) (t : Str) (i : Nat) :
    occursAt pat (a :: t) (i + 1) ↔ occursAt pat t i := Iff.rfl

theorem occursAt_zero_iff (pat s : Str) : occursAt pat s 0 ↔ isStart pat s = true := by
  rw [occursAt_iff_isStart, List.drop_zero]

theorem firstOcc?_eq_some_iff : ∀ (pat s : Str) (q : Nat),
    firstOcc? pat s = some q ↔ occursAt pat s q ∧ ∀ i, i < q → ¬ occursAt pat s i
  | pat, [], q => by
    by_cases hp : pat = []
    · subst hp
      have hf : firstOcc? ([] : Str) [] = some 0 := by rfl
      rw [hf]
      simp only [Option.some.injEq]
      constructor
      · rintro rfl
        exact ⟨(occursAt_nil_iff [] 0).2 rfl, by omega⟩
      · rintro ⟨_, hlt⟩
        rcases Nat.eq_zero_or_pos q with rfl | hq
        · rfl
        · exact absurd ((occursAt_nil_iff [] 0).2 rfl) (hlt 0 hq)
    · have hf : firstOcc? pat [] = none := by simp [firstOcc?, hp]
      rw [hf]
      constructor
      · intro h
        simp at h
      · rintro ⟨hocc, _⟩
        exact absurd ((occursAt_nil_iff pat q).1 hocc) hp
  | pat, a :: t, q => by
    simp only [firstOcc?]
    by_cases hs : isStart pat (a :: t) = true
    · simp only [if_pos hs, Option.some.injEq]
      constructor
      · rintro rfl
        exact ⟨(occursAt_zero_iff pat (a :: t)).2 hs, by omega⟩
      · rintro ⟨_, hlt⟩
        rcases Nat.eq_zero_or_pos q with rfl | hq
        · rfl
        · exact absurd ((occursAt_zero_iff pat (a :: t)).2 hs) (hlt 0 hq)
    · simp only [if_neg hs, Option.map_eq_some']
      constructor
      · rintro ⟨q', hq', rfl⟩
        obtain ⟨hocc, hbelow⟩ := (firstOcc?_eq_some_iff pat t q').1 hq'
        refine ⟨(occursAt_cons_succ pat a t q').2 hocc, ?_⟩
        intro i hi
        rcases i with _ | i'
        · rw [occursAt_zero_iff]
          simp [hs]
        · rw [occursAt_cons_succ]
          exact hbelow i' (by omega)
      · rintro ⟨hocc, hbelow⟩
        rcases q with _ | q'
        · rw [occursAt_zero_iff] at hocc
          exact absurd hocc hs
        · refine ⟨q', ?_, rfl⟩
          refine (firstOcc?_eq_some_iff pat t q').2 ⟨(occursAt_cons_succ pat a t q').1 hocc, ?_⟩
          intro i hi
          rw [← occursAt_cons_succ pat a t i]
          exact hbelow (i + 1) (by omega)

theorem firstOcc?_eq_none_iff : ∀ (pat s : Str),
    firstOcc? pat s = none ↔ ∀ i, ¬ occursAt pat s i
  | pat, [] => by
    by_cases hp : pat = []
    · subst hp
      have hf : firstOcc? ([] : Str) [] = some 0 := by rfl
      rw [hf]
      constructor
      · intro h
        simp at h
      · intro h
        exact absurd ((occursAt_nil_iff [] 0).2 rfl) (h 0)
    · have hf : firstOcc? pat [] = none := by simp [firstOcc?, hp]
      rw [hf]
      refine ⟨fun _ i => ?_, fun _ => rfl⟩
      rw [occursAt_nil_iff]
      exact hp
  | pat, a :: t => by
    simp only [firstOcc?]
    by_cases hs : isStart pat (a :: t) = true
    · simp only [if_pos hs]
      constructor
      · rintro ⟨⟩
      · intro h
        exact absurd ((occursAt_zero_iff pat (a :: t)).2 hs) (h 0)
    · simp only [if_neg hs, Option.map_eq_none']
      rw [firstOcc?_eq_none_iff pat t]
      constructor
      · intro h i
        rcases i with _ | i'
        · rw [occursAt_zero_iff]
          simp [hs]
        · rw [occursAt_cons_succ]
          exact h i'
      · intro h i
        rw [← occursAt_cons_succ pat a t i]
        exact h (i + 1)

theorem occursAt_le_length (pat s : Str) (i : Nat) (h : occursAt pat s i) (hne : pat ≠ []) :
    i + pat.length ≤ s.length := by
  obtain ⟨t, ht⟩ := h
  have hi : i < s.length := by
    by_contra hc
    push_neg at hc
    rw [List.drop_eq_nil_of_le hc] at ht
    exact hne (List.append_eq_nil.1 ht.symm).1
  have hlen := congrArg List.length ht
  rw [List.length_drop, List.length_append] at hlen
  omega

theorem occursAt_append_left (pat u v : Str) (i : Nat) (h : occursAt pat u i) :
    occursAt pat (u ++ v) i := by
  by_cases hp : pat = []
  · subst hp
    exact ⟨(u ++ v).drop i, rfl⟩
  · obtain ⟨t, ht⟩ := h
    have hi : i ≤ u.length := by
      have := occursAt_le_length pat u i ⟨t, ht⟩ hp
      omega
    refine ⟨t ++ v, ?_⟩
    rw [List.drop_append_of_le_length hi, ht, List.append_assoc]

theorem occursAt_append_right (pat u v : Str) (j : Nat) (h : occursAt pat v j) :
    occursAt pat (u ++ v) (u.length + j) := by
  obtain ⟨t, ht⟩ := h
  refine ⟨t, ?_⟩
  rw [List.drop_append, ht]

theorem occursAt_take (pat u w : Str) (i : Nat) (h : occursAt pat (u ++ w) i)
    (hb : i + pat.length ≤ u.length) : occursAt pat u i := by
  obtain ⟨t, ht⟩ := h
  rw [List.drop_append_of_le_length (by omega)] at ht
  refine ⟨(u.drop i).drop pat.length, ?_⟩
  have htake : (u.drop i ++ w).take pat.length = pat := by
    rw [ht]
    simp
  have hlen : pat.length ≤ (u.drop i).length := by
    rw [List.length_drop]
    omega
  rw [List.take_append_of_le_length hlen] at htake
  conv_lhs => rw [← List.take_append_drop pat.length (u.drop i)]
  rw [htake]

theorem occursAt_drop (pat u v : Str) (i : Nat) (h : occursAt pat (u ++ v) i)
    (hb : u.length ≤ i) : occursAt pat v (i - u.length) := by
  obtain ⟨t, ht⟩ := h
  refine ⟨t, ?_⟩
  have heq : i = u.length + (i - u.length) := by omega
  rw [heq, List.drop_append] at ht
  exact ht

theorem occursAt_getElem (pat s : Str) (i : Nat) (h : occursAt pat s i)
    (j : Nat) (hj : j < pat.length) : s[i + j]? = pat[j]? := by
  obtain ⟨t, ht⟩ := h
  rw [← List.getElem?_drop, ht, List.getElem?_append, if_pos hj]

theorem mem_of_getElem?_some {pat : Str} {j : Nat} {c : Char} (h : pat[j]? = some c) :
    c ∈ pat := by
  obtain ⟨hj, rfl⟩ := List.getElem?_eq_some_iff.1 h
  exact List.getElem_mem hj

theorem occursAt_nlSplit (pat u v : Str) (i : Nat) (hnl : '\n' ∉ pat)
    (h : occursAt pat (u ++ '\n' :: v) i) :
    i + pat.length ≤ u.length ∨ (u.length + 1 ≤ i ∧ occursAt pat v (i - u.length - 1)) := by
  have hsplit : u ++ '\n' :: v = (u ++ ['\n']) ++ v := by simp
  by_cases h1 : i + pat.length ≤ u.length
  · exact Or.inl h1
  · by_cases h2 : u.length + 1 ≤ i
    · refine Or.inr ⟨h2, ?_⟩
      rw [hsplit] at h
      have := occursAt_drop pat (u ++ ['\n']) v i h (by simp; omega)
      simpa using this
    · exfalso
      have hp : pat ≠ [] := by
        intro he
        subst he
        simp at h1
        omega
      have hj : u.length - i < pat.length := by omega
      have hchar := occursAt_getElem pat (u ++ '\n' :: v) i h (u.length - i) hj
      have hidx : i + (u.length - i) = u.length := by omega
      rw [hidx] at hchar
      have hnlpos : (u ++ '\n' :: v)[u.length]? = some '\n' := by
        rw [List.getElem?_append_right (Nat.le_refl _)]
        simp
      rw [hnlpos] at hchar
      exact hnl (mem_of_getElem?_some hchar.symm)

theorem occursIn_iff_parts (pat s : Str) : occursIn pat s ↔ ∃ x y, s = x ++ (pat ++ y) := by
  constructor
  · rintro ⟨i, t, ht⟩
    refine ⟨s.take i, t, ?_⟩
    conv_lhs => rw [← List.take_append_drop i s]
    rw [ht]
  · rintro ⟨x, y, rfl⟩
    exact ⟨x.length, y, by rw [List.drop_left]⟩

theorem occursIn_trans (a b c : Str) (h1 : occursIn a b) (h2 : occursIn b c) : occursIn a c := by
  rw [occursIn_iff_parts] at *
  obtain ⟨x1, y1, rfl⟩ := h1
  obtain ⟨x2, y2, rfl⟩ := h2
  exact ⟨x2 ++ x1, y1 ++ y2, by simp⟩

theorem containsSub_iff (pat s : Str) : containsSub pat s = true ↔ occursIn pat s := by
  unfold containsSub
  rw [Option.isSome_iff_exists]
  constructor
  · rintro ⟨i, hi⟩
    exact ⟨i, ((firstOcc?_eq_some_iff pat s i).1 hi).1⟩
  · rintro ⟨i, hi⟩
    match hf : firstOcc? pat s with
    | some j => exact ⟨j, rfl⟩
    | none => exact absurd hi ((firstOcc?_eq_none_iff pat s).1 hf i)

theorem containsSub_eq_false_iff (pat s : Str) :
    containsSub pat s = false ↔ firstOcc? pat s = none := by
  unfold containsSub
  cases firstOcc? pat s <;> simp

theorem jsSlice_take (s : Str) (n : Nat) : jsSlice s 0 (n : Int) = s.take n := by
  unfold jsSlice jsClamp
  have h0 : ¬ ((0 : Int) < 0) := by omega
  have hn : ¬ ((n : Int) < 0) := by omega
  rw [if_neg hn, if_neg h0]
  simp only [Int.toNat_ofNat, Int.toNat_zero, Nat.zero_min, List.drop_zero]
  rcases Nat.le_total n s.length with h | h
  · rw [Nat.min_eq_left h]
  · rw [Nat.min_eq_right h, List.take_of_length_le h, List.take_of_length_le (by omega)]

theorem jsSliceFrom_drop (s : Str) (n : Nat) : jsSliceFrom s (n : Int) = s.drop n := by
  unfold jsSliceFrom jsClamp
  have hn : ¬ ((n : Int) < 0) := by omega
  rw [if_neg hn]
  simp only [Int.toNat_ofNat]
  rcases Nat.le_total n s.length with h | h
  · rw [Nat.min_eq_left h]
  · rw [Nat.min_eq_right h, List.drop_eq_nil_of_le (Nat.le_refl _),
      List.drop_eq_nil_of_le h]

/-! C2: separator rule of injection. -/

/-- C2 counterexample: injecting body X into empty content does not yield the
start marker immediately; the code prepends a blank line because the empty
string does not end with a newline. -/
theorem inject_empty_content_cx :
    injectIndex [] ("X".toList) none ≠
      ("<!-- AGENTS-MD-EMBED-START -->\nX\n<!-- AGENTS-MD-EMBED-END -->\n").toList := by
  decide

/-- C2 (amended): when no block is present, inject appends with separator one
newline when the content ends with a newline and two newlines otherwise,
including for empty content; injecting X into empty content therefore yields
two newlines, the wrapped block and a final newline.  Stated for both
injectIndex and injectSkillsIndex. -/
theorem inject_separator_amended :
    (∀ (c b : Str) (p : Option Str), hasExistingIndex c p = false →
      injectIndex c b p =
        c ++ (if endsWithNewline c then ['\n'] else ['\n', '\n'])
          ++ wrapWithMarkers b p ++ ['\n'])
    ∧ (∀ c b : Str, hasExistingSkillsIndex c = false →
      injectSkillsIndex c b =
        c ++ (if endsWithNewline c then ['\n'] else ['\n', '\n'])
          ++ (SKILLS_START_MARKER ++ '\n' :: (b ++ '\n' :: SKILLS_END_MARKER)) ++ ['\n'])
    ∧ injectIndex [] ("X".toList) none =
        ("\n\n<!-- AGENTS-MD-EMBED-START -->\nX\n<!-- AGENTS-MD-EMBED-END -->\n").toList
    ∧ injectSkillsIndex [] ("X".toList) =
        ("\n\n<!-- AGENTS-MD-SKILLS-START -->\nX\n<!-- AGENTS-MD-SKILLS-END -->\n").toList := by
  refine ⟨fun c b p h => ?_, fun c b h => ?_, by decide, by decide⟩
  · unfold injectIndex
    rw [if_neg (by simp [h])]
  · unfold injectSkillsIndex
    rw [if_neg (by simp [h])]

/-- C2 witness: the amended separator rule applied to the concrete content
ending in a newline. -/
theorem inject_separator_witness :
    injectIndex ("# P\n".toList) ("body".toList) none =
      ("# P\n".toList) ++ ['\n'] ++ wrapWithMarkers ("body".toList) none ++ ['\n'] := by
  have h := inject_separator_amended.1 ("# P\n".toList) ("body".toList) none (by decide)
  rw [h]
  rfl

/-! C3: nontermination of the sweep-all removal on a dangling start-marker
fragment. -/

theorem sweepStep_dangling :
    sweepStep ("abc<!-- AGENTS-MD-EMBED-START".toList) = "abc<!-- AGENTS-MD-EMBED-START".toList := by
  decide

theorem sweepLoop_dangling :
    ∀ fuel : Nat, sweepLoop fuel ("abc<!-- AGENTS-MD-EMBED-START".toList) = none := by
  intro fuel
  induction fuel with
  | zero => decide
  | succ n ih =>
    show (if containsSub START_MARKER_PREFIX ("abc<!-- AGENTS-MD-EMBED-START".toList) then
      sweepLoop n (sweepStep ("abc<!-- AGENTS-MD-EMBED-START".toList)) else
      some ("abc<!-- AGENTS-MD-EMBED-START".toList)) = none
    rw [if_pos (by decide), sweepStep_dangling]
    exact ih

/-- C3: the identifier-less removal sweep does not terminate on every content
string: on content whose start-marker text is a dangling fragment at index 3
with no marker-suffix occurrence after it, the dangling-marker strip removes
zero characters (indexOf returns -1, so the strip boundary computes to 3),
and the loop never makes progress, contradicting the code comment that the
strip prevents an infinite loop; the fuelled embedding returns none for
every fuel. -/
theorem sweep_removal_nontermination :
    ∀ fuel : Nat, removeDocsIndexFuel fuel ("abc<!-- AGENTS-MD-EMBED-START".toList) none = none := by
  intro fuel
  unfold removeDocsIndexFuel
  rw [if_pos (by decide)]
  show (sweepLoop fuel ("abc<!-- AGENTS-MD-EMBED-START".toList)).map cleanupAfterRemoval = none
  rw [sweepLoop_dangling fuel]
  rfl

theorem parseSkillFrontmatter_extract_none {content : Str}
    (h : extractFrontmatter content = none) : parseSkillFrontmatter content = none := by
  unfold parseSkillFrontmatter
  rw [h]

theorem parseSkillFrontmatter_extract_some {content body : Str}
    (h : extractFrontmatter content = some body) :
    parseSkillFrontmatter content =
      if fieldValue ("name:".toList) (splitOnChar '\n' body) = []
          ∨ fieldValue ("description:".toList) (splitOnChar '\n' body) = [] then none
      else some ⟨fieldValue ("name:".toList) (splitOnChar '\n' body),
                 fieldValue ("description:".toList) (splitOnChar '\n' body)⟩ := by
  unfold parseSkillFrontmatter
  rw [h]

/-! C8: null safety of frontmatter parsing. -/

/-- C8: parseSkillFrontmatter returns null, never a partially-filled object:
a metadata block containing only a name line yields none; whenever it
returns a value both fields are nonempty; no leading metadata block yields
none; an empty block body yields none; and a missing-or-empty name or
description field yields none. -/
theorem parse_frontmatter_null_safety :
    parseSkillFrontmatter ("---\nname: only-name\n---\n# Content".toList) = none
    ∧ (∀ (content : Str) (fm : SkillFrontmatter),
        parseSkillFrontmatter content = some fm → fm.name ≠ [] ∧ fm.description ≠ [])
    ∧ (∀ content : Str, extractFrontmatter content = none → parseSkillFrontmatter content = none)
    ∧ (∀ content : Str, extractFrontmatter content = some [] → parseSkillFrontmatter content = none)
    ∧ (∀ (content : Str) (body : Str), extractFrontmatter content = some body →
        (fieldValue ("name:".toList) (splitOnChar '\n' body) = []
          ∨ fieldValue ("description:".toList) (splitOnChar '\n' body) = []) →
        parseSkillFrontmatter content = none) := by
  refine ⟨by decide, ?_, ?_, ?_, ?_⟩
  · intro content fm h
    rcases hext : extractFrontmatter content with _ | body
    · rw [parseSkillFrontmatter_extract_none hext] at h
      exact absurd h (by simp)
    · rw [parseSkillFrontmatter_extract_some hext] at h
      by_cases hcond : fieldValue ("name:".toList) (splitOnChar '\n' body) = []
          ∨ fieldValue ("description:".toList) (splitOnChar '\n' body) = []
      · rw [if_pos hcond] at h
        exact absurd h (by simp)
      · rw [if_neg hcond] at h
        push_neg at hcond
        injection h with h1
        subst h1
        exact ⟨hcond.1, hcond.2⟩
  · intro content h
    exact parseSkillFrontmatter_extract_none h
  · intro content h
    rw [parseSkillFrontmatter_extract_some h]
    rfl
  · intro content body h hfield
    rw [parseSkillFrontmatter_extract_some h]
    exact if_pos hfield

/-- C8 witness: the null-safety theorem applied to a well-formed skill file:
the parsed fields are nonempty. -/
theorem parse_frontmatter_null_safety_witness :
    ("my-skill".toList : Str) ≠ [] ∧ ("A useful skill".toList : Str) ≠ [] :=
  parse_frontmatter_null_safety.2.1
    ("---\nname: my-skill\ndescription: A useful skill\n---\n\n# My Skill\n".toList)
    ⟨"my-skill".toList, "A useful skill".toList⟩ (by decide)

/-! C6: skill entry serialization and escaping. -/

theorem escChar_append (t : Char) (a b : Str) :
    escChar t (a ++ b) = escChar t a ++ escChar t b := by
  induction a with
  | nil => rfl
  | cons c rest ih =>
    show escChar t (c :: (rest ++ b)) = escChar t (c :: rest) ++ escChar t b
    simp only [escChar]
    by_cases hc : c = t
    · rw [if_pos hc, if_pos hc, ih]
      rfl
    · rw [if_neg hc, if_neg hc, ih]
      rfl

theorem escapeDesc_append (a b : Str) : escapeDesc (a ++ b) = escapeDesc a ++ escapeDesc b := by
  unfold escapeDesc
  rw [escChar_append '|', escChar_append ';', escChar_append ':', escChar_append '[',
    escChar_append ']', escChar_append '\x7b', escChar_append '\x7d']

theorem escChar_single_ne (t c : Char) (h : c ≠ t) : escChar t [c] = [c] := by
  simp [escChar, h]

theorem escapeDesc_single (c : Char) :
    escapeDesc [c] = if c ∈ escTargets then ['\\', c] else [c] := by
  by_cases h1 : c = '|'
  · subst h1; decide
  · by_cases h2 : c = ';'
    · subst h2; decide
    · by_cases h3 : c = ':'
      · subst h3; decide
      · by_cases h4 : c = '['
        · subst h4; decide
        · by_cases h5 : c = ']'
          · subst h5; decide
          · by_cases h6 : c = '\x7b'
            · subst h6; decide
            · by_cases h7 : c = '\x7d'
              · subst h7; decide
              · have hmem : c ∉ escTargets := by
                  simp [escTargets, h1, h2, h3, h4, h5, h6, h7]
                rw [if_neg hmem]
                unfold escapeDesc
                rw [escChar_single_ne '|' c h1, escChar_single_ne ';' c h2,
                  escChar_single_ne ':' c h3, escChar_single_ne '[' c h4,
                  escChar_single_ne ']' c h5, escChar_single_ne '\x7b' c h6,
                  escChar_single_ne '\x7d' c h7]

theorem escapeDesc_eq_onePass (d : Str) : escapeDesc d = escOnePass d := by
  induction d with
  | nil => rfl
  | cons c rest ih =>
    have hsplit : (c :: rest : Str) = [c] ++ rest := rfl
    rw [hsplit, escapeDesc_append, escapeDesc_single, ih]
    rfl

theorem unescapedFreeAux_onePass (sub : List Char) (hsub : ∀ x, x ∈ sub → x ∈ escTargets)
    (hbs : '\\' ∉ sub) : ∀ (d : Str) (prev : Option Char),
    unescapedFreeAux sub prev (escOnePass d) = true := by
  intro d
  induction d with
  | nil => intro _; rfl
  | cons c rest ih =>
    intro prev
    by_cases hc : c ∈ escTargets
    · show unescapedFreeAux sub prev ((if c ∈ escTargets then ['\\', c] else [c]) ++ escOnePass rest) = true
      rw [if_pos hc]
      show unescapedFreeAux sub prev ('\\' :: c :: escOnePass rest) = true
      simp only [unescapedFreeAux, Bool.and_eq_true]
      refine ⟨?_, ?_, ih (some c)⟩
      · rw [if_neg hbs]
      · by_cases hcs : c ∈ sub
        · rw [if_pos hcs]
          rfl
        · rw [if_neg hcs]
    · show unescapedFreeAux sub prev ((if c ∈ escTargets then ['\\', c] else [c]) ++ escOnePass rest) = true
      rw [if_neg hc]
      show unescapedFreeAux sub prev (c :: escOnePass rest) = true
      simp only [unescapedFreeAux, Bool.and_eq_true]
      refine ⟨?_, ih (some c)⟩
      rw [if_neg (fun hmem => hc (hsub c hmem))]

/-- C6: a serialized skill entry is the name, a colon and the escaped
description (with the bracketed sibling list appended when sibling files
exist); the user entry of the specification scenario serializes so that the
index contains the claimed literal substring; and for every description the
escaped form contains no occurrence of pipe, semicolon, brackets or braces
that is not immediately preceded by a backslash. -/
theorem format_skill_entry_escaping :
    (∀ s : SkillEntry, s.siblingFiles = [] →
      formatSkillEntry s = s.name ++ ':' :: escapeDesc s.description)
    ∧ (∀ s : SkillEntry, s.siblingFiles ≠ [] →
      formatSkillEntry s = s.name ++ ':' ::
        (escapeDesc s.description ++ '[' :: (joinSep [','] s.siblingFiles ++ [']'])))
    ∧ containsSub ("skill1:Has \\| pipe and \\; semicolon".toList)
        (generateSkillsIndex
          [⟨"skill1".toList, "Has | pipe and ; semicolon".toList, [], [], .user, none⟩] none) = true
    ∧ (∀ d : Str, unescapedFree ['|', ';', '[', ']', '\x7b', '\x7d'] (escapeDesc d) = true) := by
  refine ⟨?_, ?_, by decide, ?_⟩
  · intro s h
    unfold formatSkillEntry
    rw [if_neg (by simp [h])]
  · intro s h
    unfold formatSkillEntry
    rw [if_pos h]
  · intro d
    unfold unescapedFree
    rw [escapeDesc_eq_onePass]
    refine unescapedFreeAux_onePass _ ?_ (by decide) d none
    intro x hx
    fin_cases hx <;> decide

/-- C6 witness: the entry serialization shape applied to the scenario entry,
which has no sibling files. -/
theorem format_skill_entry_escaping_witness :
    formatSkillEntry ⟨"skill1".toList, "Has | pipe and ; semicolon".toList, [], [], .user, none⟩ =
      ("skill1".toList) ++ ':' :: escapeDesc ("Has | pipe and ; semicolon".toList) :=
  format_skill_entry_escaping.1 _ rfl

/-! C5: partition behavior of the skills grouping. -/

theorem occursIn_append_ext_left (pat a b : Str) (h : occursIn pat b) : occursIn pat (a ++ b) := by
  rw [occursIn_iff_parts] at *
  obtain ⟨x, y, rfl⟩ := h
  exact ⟨a ++ x, y, by simp⟩

theorem occursIn_append_ext_right (pat a b : Str) (h : occursIn pat a) : occursIn pat (a ++ b) := by
  rw [occursIn_iff_parts] at *
  obtain ⟨x, y, rfl⟩ := h
  exact ⟨x, y ++ b, by simp⟩

theorem occursIn_refl (pat : Str) : occursIn pat pat := by
  rw [occursIn_iff_parts]
  exact ⟨[], [], by simp⟩

theorem occursIn_joinSep_of_mem (sep : Str) (x : Str) :
    ∀ xs : List Str, x ∈ xs → occursIn x (joinSep sep xs) := by
  intro xs
  induction xs with
  | nil => intro h; cases h
  | cons y rest ih =>
    intro hmem
    rcases List.mem_cons.1 hmem with rfl | hmem'
    · cases rest with
      | nil => exact occursIn_refl x
      | cons z rest' =>
        show occursIn x (x ++ sep ++ joinSep sep (z :: rest'))
        rw [List.append_assoc]
        exact occursIn_append_ext_right x x _ (occursIn_refl x)
    · have hne : rest ≠ [] := by
        intro h
        subst h
        cases hmem'
      cases rest with
      | nil => exact absurd rfl hne
      | cons z rest' =>
        show occursIn x (y ++ sep ++ joinSep sep (z :: rest'))
        rw [List.append_assoc]
        exact occursIn_append_ext_left x y _ (occursIn_append_ext_left x sep _ (ih hmem'))

theorem upsert_flatten_perm (m : List (Str × List SkillEntry)) (k : Str) (v : SkillEntry) :
    (((upsert m k v).map Prod.snd).flatten).Perm ((m.map Prod.snd).flatten ++ [v]) := by
  induction m with
  | nil => simp [upsert]
  | cons kv rest ih =>
    obtain ⟨k', vs⟩ := kv
    show (((if k' = k then (k', vs ++ [v]) :: rest else (k', vs) :: upsert rest k v).map
      Prod.snd).flatten).Perm _
    by_cases h : k' = k
    · rw [if_pos h]
      simp only [List.map_cons, List.flatten_cons]
      calc (vs ++ [v]) ++ (rest.map Prod.snd).flatten
          = vs ++ ([v] ++ (rest.map Prod.snd).flatten) := by simp
        _ ~ vs ++ ((rest.map Prod.snd).flatten ++ [v]) :=
            List.Perm.append_left vs (List.perm_append_singleton v _).symm
        _ = (vs ++ (rest.map Prod.snd).flatten) ++ [v] := by simp
    · rw [if_neg h]
      simp only [List.map_cons, List.flatten_cons]
      calc vs ++ ((upsert rest k v).map Prod.snd).flatten
          ~ vs ++ ((rest.map Prod.snd).flatten ++ [v]) := List.Perm.append_left vs ih
        _ = (vs ++ (rest.map Prod.snd).flatten) ++ [v] := by simp

theorem append_singleton_shuffle {α : Type} (a b : List α) (v : α) :
    ((a ++ [v]) ++ b).Perm ((a ++ b) ++ [v]) := by
  calc (a ++ [v]) ++ b = a ++ ([v] ++ b) := by simp
    _ ~ a ++ (b ++ [v]) := List.Perm.append_left a (List.perm_append_singleton v b).symm
    _ = (a ++ b) ++ [v] := by simp

theorem groupStep_flatten (acc : GroupAcc) (s : SkillEntry)
    (hs : (s.source = .plugin ∨ s.source = .skillsSh) → truthyName s.pluginName = true) :
    (flatten4 (groupStep acc s)).Perm (flatten4 acc ++ [s]) := by
  obtain ⟨pg, sg, us, ps⟩ := acc
  unfold groupStep flatten4
  dsimp only
  by_cases h1 : s.source = .plugin ∧ truthyName s.pluginName
  · rw [if_pos h1]
    simp only
    have hperm := upsert_flatten_perm pg (s.pluginName.getD []) s
    calc ((upsert pg (s.pluginName.getD []) s).map Prod.snd).flatten
          ++ ((sg.map Prod.snd).flatten ++ (us ++ ps))
        ~ ((pg.map Prod.snd).flatten ++ [s]) ++ ((sg.map Prod.snd).flatten ++ (us ++ ps)) :=
          hperm.append_right _
      _ ~ ((pg.map Prod.snd).flatten ++ ((sg.map Prod.snd).flatten ++ (us ++ ps))) ++ [s] :=
          append_singleton_shuffle _ _ s
  · rw [if_neg h1]
    by_cases h2 : s.source = .skillsSh ∧ truthyName s.pluginName
    · rw [if_pos h2]
      simp only
      have hperm := upsert_flatten_perm sg (s.pluginName.getD []) s
      calc (pg.map Prod.snd).flatten
            ++ (((upsert sg (s.pluginName.getD []) s).map Prod.snd).flatten ++ (us ++ ps))
          ~ (pg.map Prod.snd).flatten ++ ((((sg.map Prod.snd).flatten ++ [s])) ++ (us ++ ps)) :=
            List.Perm.append_left _ (hperm.append_right _)
        _ ~ (pg.map Prod.snd).flatten ++ (((sg.map Prod.snd).flatten ++ (us ++ ps)) ++ [s]) :=
            List.Perm.append_left _ (append_singleton_shuffle _ _ s)
        _ = ((pg.map Prod.snd).flatten ++ ((sg.map Prod.snd).flatten ++ (us ++ ps))) ++ [s] := by
            simp
    · rw [if_neg h2]
      by_cases h3 : s.source = .user
      · rw [if_pos h3]
        simp only
        calc (pg.map Prod.snd).flatten ++ ((sg.map Prod.snd).flatten ++ ((us ++ [s]) ++ ps))
            ~ (pg.map Prod.snd).flatten ++ ((sg.map Prod.snd).flatten ++ ((us ++ ps) ++ [s])) :=
              List.Perm.append_left _ (List.Perm.append_left _ (append_singleton_shuffle _ _ s))
          _ = ((pg.map Prod.snd).flatten ++ ((sg.map Prod.snd).flatten ++ (us ++ ps))) ++ [s] := by
              simp
      · rw [if_neg h3]
        by_cases h4 : s.source = .project
        · rw [if_pos h4]
          simp
        · exfalso
          cases hsrc : s.source with
          | plugin => exact h1 ⟨hsrc, hs (Or.inl hsrc)⟩
          | skillsSh => exact h2 ⟨hsrc, hs (Or.inr hsrc)⟩
          | user => exact h3 hsrc
          | project => exact h4 hsrc

theorem groupSkills_flatten_aux (skills : List SkillEntry)
    (h : ∀ s ∈ skills, (s.source = .plugin ∨ s.source = .skillsSh) → truthyName s.pluginName = true) :
    ∀ init : GroupAcc, (flatten4 (skills.foldl groupStep init)).Perm (flatten4 init ++ skills) := by
  induction skills with
  | nil => intro init; simp
  | cons s rest ih =>
    intro init
    have hstep := groupStep_flatten init s (h s (List.mem_cons_self s rest))
    have htail := ih (fun x hx => h x (List.mem_cons_of_mem s hx)) (groupStep init s)
    calc flatten4 ((s :: rest).foldl groupStep init)
        = flatten4 (rest.foldl groupStep (groupStep init s)) := rfl
      _ ~ flatten4 (groupStep init s) ++ rest := htail
      _ ~ (flatten4 init ++ [s]) ++ rest := hstep.append_right rest
      _ = flatten4 init ++ (s :: rest) := by simp

theorem occursIn_cons_ext (c : Char) (pat x : Str) (h : occursIn pat x) :
    occursIn pat (c :: x) := by
  rw [occursIn_iff_parts] at *
  obtain ⟨u, v, rfl⟩ := h
  exact ⟨c :: u, v, rfl⟩

theorem generateSkillsIndex_eq (skills : List SkillEntry) (rc : Option Str)
    (pg sg : List (Str × List SkillEntry)) (us ps : List SkillEntry)
    (hG : groupSkills skills = (pg, sg, us, ps)) :
    generateSkillsIndex skills rc =
      joinSep ['|'] (["[Skills Index]".toList]
        ++ pg.map pluginSegment ++ sg.map skillsShSegment
        ++ (if us ≠ [] then
              ["user:\x7b".toList ++ joinSep [';'] (us.map formatSkillEntry) ++ ['\x7d']]
            else [])
        ++ (if ps ≠ [] then
              ["project:\x7b".toList ++ joinSep [';'] (ps.map formatSkillEntry) ++ ['\x7d']]
            else [])
        ++ ["Regen: ".toList ++ (match rc with
              | some c => if c = [] then "npx agdex skills embed".toList else c
              | none => "npx agdex skills embed".toList)]) := by
  unfold generateSkillsIndex
  rw [hG]

/-- C5 counterexample: a plugin-source entry with no origin label is dropped:
the serialized index is just the header and the regeneration command, and the
serialized form of the entry does not occur in it. -/
theorem skills_grouping_dropped_entry_cx :
    generateSkillsIndex [⟨"a".toList, "d".toList, [], [], .plugin, none⟩] none
      = ("[Skills Index]|Regen: npx agdex skills embed".toList)
    ∧ containsSub (formatSkillEntry ⟨"a".toList, "d".toList, [], [], .plugin, none⟩)
        (generateSkillsIndex [⟨"a".toList, "d".toList, [], [], .plugin, none⟩] none) = false := by
  decide

/-- C5 (amended): provided every plugin and skills-sh entry carries a truthy
origin label, generateSkillsIndex partitions every input entry into exactly
one emitted group — the concatenation of the four group collections in
emitted order is a permutation of the input — and the serialized form of
every input entry occurs in the serialized index. -/
theorem skills_grouping_partition_amended :
    ∀ skills : List SkillEntry,
      (∀ s ∈ skills, (s.source = .plugin ∨ s.source = .skillsSh) → truthyName s.pluginName = true) →
      (flatten4 (groupSkills skills)).Perm skills
      ∧ ∀ (rc : Option Str) (s : SkillEntry), s ∈ skills →
          occursIn (formatSkillEntry s) (generateSkillsIndex skills rc) := by
  intro skills h
  have hperm0 := groupSkills_flatten_aux skills h ([], [], [], [])
  have hperm : (flatten4 (groupSkills skills)).Perm skills := by
    simpa [flatten4] using hperm0
  refine ⟨hperm, ?_⟩
  intro rc s hs
  rcases hG : groupSkills skills with ⟨pg, sg, us, ps⟩
  have hmem : s ∈ flatten4 (pg, sg, us, ps) := by
    rw [← hG]
    exact hperm.mem_iff.2 hs
  unfold flatten4 at hmem
  dsimp only at hmem
  rw [generateSkillsIndex_eq skills rc pg sg us ps hG]
  rcases List.mem_append.1 hmem with hA | hrest
  · obtain ⟨l, hl, hsl⟩ := List.mem_flatten.1 hA
    obtain ⟨kv, hkv, rfl⟩ := List.mem_map.1 hl
    refine occursIn_trans _ (pluginSegment kv) _ ?_ ?_
    · have hj := occursIn_joinSep_of_mem [';'] (formatSkillEntry s) (kv.2.map formatSkillEntry)
        (List.mem_map_of_mem _ hsl)
      unfold pluginSegment
      exact occursIn_append_ext_left _ _ _
        (occursIn_cons_ext ':' _ _ (occursIn_cons_ext '\x7b' _ _
          (occursIn_append_ext_right _ _ _ hj)))
    · refine occursIn_joinSep_of_mem ['|'] _ _ ?_
      have hseg : pluginSegment kv ∈ pg.map pluginSegment := List.mem_map_of_mem _ hkv
      refine List.mem_append.2 (Or.inl ?_)
      refine List.mem_append.2 (Or.inl ?_)
      refine List.mem_append.2 (Or.inl ?_)
      refine List.mem_append.2 (Or.inl ?_)
      exact List.mem_append.2 (Or.inr hseg)
  · rcases List.mem_append.1 hrest with hB | hUP
    · obtain ⟨l, hl, hsl⟩ := List.mem_flatten.1 hB
      obtain ⟨kv, hkv, rfl⟩ := List.mem_map.1 hl
      refine occursIn_trans _ (skillsShSegment kv) _ ?_ ?_
      · have hj := occursIn_joinSep_of_mem [';'] (formatSkillEntry s) (kv.2.map formatSkillEntry)
          (List.mem_map_of_mem _ hsl)
        unfold skillsShSegment
        exact occursIn_append_ext_left _ _ _
          (occursIn_cons_ext ':' _ _ (occursIn_cons_ext '\x7b' _ _
            (occursIn_append_ext_right _ _ _ hj)))
      · refine occursIn_joinSep_of_mem ['|'] _ _ ?_
        have hseg : skillsShSegment kv ∈ sg.map skillsShSegment := List.mem_map_of_mem _ hkv
        refine List.mem_append.2 (Or.inl ?_)
        refine List.mem_append.2 (Or.inl ?_)
        refine List.mem_append.2 (Or.inl ?_)
        exact List.mem_append.2 (Or.inr hseg)
    · rcases List.mem_append.1 hUP with hU | hP
      · have hne : us ≠ [] := List.ne_nil_of_mem hU
        refine occursIn_trans _
          ("user:\x7b".toList ++ joinSep [';'] (us.map formatSkillEntry) ++ ['\x7d']) _ ?_ ?_
        · have hj := occursIn_joinSep_of_mem [';'] (formatSkillEntry s) (us.map formatSkillEntry)
            (List.mem_map_of_mem _ hU)
          exact occursIn_append_ext_right _ _ _ (occursIn_append_ext_left _ _ _ hj)
        · refine occursIn_joinSep_of_mem ['|'] _ _ ?_
          rw [if_pos hne]
          refine List.mem_append.2 (Or.inl ?_)
          refine List.mem_append.2 (Or.inl ?_)
          refine List.mem_append.2 (Or.inr ?_)
          exact List.mem_singleton.2 rfl
      · have hne : ps ≠ [] := List.ne_nil_of_mem hP
        refine occursIn_trans _
          ("project:\x7b".toList ++ joinSep [';'] (ps.map formatSkillEntry) ++ ['\x7d']) _ ?_ ?_
        · have hj := occursIn_joinSep_of_mem [';'] (formatSkillEntry s) (ps.map formatSkillEntry)
            (List.mem_map_of_mem _ hP)
          exact occursIn_append_ext_right _ _ _ (occursIn_append_ext_left _ _ _ hj)
        · refine occursIn_joinSep_of_mem ['|'] _ _ ?_
          rw [if_pos hne]
          refine List.mem_append.2 (Or.inl ?_)
          exact List.mem_append.2 (Or.inr (List.mem_singleton.2 rfl))

/-- C5 witness: the partition permutation at a concrete user entry and a
labelled plugin entry. -/
theorem skills_grouping_partition_witness :
    (flatten4 (groupSkills
      [⟨"u1".toList, "du".toList, [], [], .user, none⟩,
       ⟨"p1".toList, "dp".toList, [], [], .plugin, some ("lab".toList)⟩])).Perm
      [⟨"u1".toList, "du".toList, [], [], .user, none⟩,
       ⟨"p1".toList, "dp".toList, [], [], .plugin, some ("lab".toList)⟩] :=
  (skills_grouping_partition_amended _ (by decide)).1

/-! C9: removal behavior. -/

theorem jsIndexOf_eq {s pat : Str} {i : Nat} (h : firstOcc? pat s = some i) :
    jsIndexOf s pat = (i : Int) := by
  unfold jsIndexOf
  rw [h]

theorem natCast_add_length (e n : Nat) : (e : Int) + (n : Int) = ((e + n : Nat) : Int) := by
  push_cast
  ring

theorem getStartMarker_ne_nil (p : Option Str) : getStartMarker p ≠ [] := by
  cases p with
  | none => decide
  | some name =>
    show (if name = [] then START_MARKER_PREFIX ++ MARKER_SUFFIX
      else START_MARKER_PREFIX ++ ':' :: (name ++ MARKER_SUFFIX)) ≠ []
    split <;> simp [START_MARKER_PREFIX]

theorem getEndMarker_ne_nil (p : Option Str) : getEndMarker p ≠ [] := by
  cases p with
  | none => decide
  | some name =>
    show (if name = [] then END_MARKER_PREFIX ++ MARKER_SUFFIX
      else END_MARKER_PREFIX ++ ':' :: (name ++ MARKER_SUFFIX)) ≠ []
    split <;> simp [END_MARKER_PREFIX]

theorem removeSkillsIndex_splice (c : Str) (s e : Nat)
    (hS : firstOcc? SKILLS_START_MARKER c = some s)
    (hE : firstOcc? SKILLS_END_MARKER c = some e) :
    removeSkillsIndex c =
      cleanupAfterRemoval (c.take s ++ c.drop (e + SKILLS_END_MARKER.length)) := by
  have hasB : hasExistingSkillsIndex c = true := by
    unfold hasExistingSkillsIndex containsSub
    rw [hS]
    rfl
  unfold removeSkillsIndex
  rw [if_pos hasB, jsIndexOf_eq hS, jsIndexOf_eq hE, jsSlice_take,
    natCast_add_length, jsSliceFrom_drop]

theorem hasExistingIndex_some_of_firstOcc {c name : Str} {s : Nat} (hname : name ≠ [])
    (hS : firstOcc? (getStartMarker (some name)) c = some s) :
    hasExistingIndex c (some name) = true := by
  show (if name = [] then containsSub START_MARKER_PREFIX c
    else containsSub (getStartMarker (some name)) c) = true
  rw [if_neg hname]
  unfold containsSub
  rw [hS]
  rfl

theorem removeDocsIndexFuel_splice (fuel : Nat) (c name : Str) (s e : Nat) (hname : name ≠ [])
    (hS : firstOcc? (getStartMarker (some name)) c = some s)
    (hE : firstOcc? (getEndMarker (some name)) c = some e)
    (hord : s < e + (getEndMarker (some name)).length) :
    removeDocsIndexFuel fuel c (some name) =
      some (cleanupAfterRemoval (c.take s ++ c.drop (e + (getEndMarker (some name)).length))) := by
  unfold removeDocsIndexFuel
  rw [if_pos (hasExistingIndex_some_of_firstOcc hname hS)]
  show (Option.map cleanupAfterRemoval
    (if name = [] then sweepLoop fuel c
     else
      if jsIndexOf c (getStartMarker (some name)) ≠ -1 ∧
          jsIndexOf c (getEndMarker (some name)) + ((getEndMarker (some name)).length : Int) >
            jsIndexOf c (getStartMarker (some name)) then
        some (jsSlice c 0 (jsIndexOf c (getStartMarker (some name)))
          ++ jsSliceFrom c
              (jsIndexOf c (getEndMarker (some name)) + ((getEndMarker (some name)).length : Int)))
      else some c)) = _
  rw [if_neg hname, jsIndexOf_eq hS, jsIndexOf_eq hE]
  rw [if_pos (by constructor <;> [omega; · rw [natCast_add_length]; omega])]
  rw [jsSlice_take, natCast_add_length, jsSliceFrom_drop]
  rfl

/-- C9 counterexample: content consisting of a dangling skills start marker
has no end marker and hence no block, yet removeSkillsIndex changes it, so
neither claimed branch (delete through the end marker, or return the content
unchanged) describes the code. -/
theorem remove_block_behavior_cx :
    firstOcc? SKILLS_END_MARKER SKILLS_START_MARKER = none
    ∧ removeSkillsIndex SKILLS_START_MARKER ≠ SKILLS_START_MARKER := by
  decide

/-- C9 (amended): when both markers are present and the first end marker
starts at or after the end of the first start marker, remove deletes from the
start-marker index through the end-marker index inclusive and then applies
the newline-collapse and trailing-newline normalization (for removeSkillsIndex
and for provider-specific removeDocsIndex); when the start marker is absent,
remove returns the content unchanged; a block that is the entire file leaves
the empty string. -/
theorem remove_block_behavior_amended :
    (∀ (c : Str) (s e : Nat),
      firstOcc? SKILLS_START_MARKER c = some s →
      firstOcc? SKILLS_END_MARKER c = some e →
      s + SKILLS_START_MARKER.length ≤ e →
      removeSkillsIndex c =
        cleanupAfterRemoval (c.take s ++ c.drop (e + SKILLS_END_MARKER.length)))
    ∧ (∀ (fuel : Nat) (c name : Str) (s e : Nat), name ≠ [] →
      firstOcc? (getStartMarker (some name)) c = some s →
      firstOcc? (getEndMarker (some name)) c = some e →
      s + (getStartMarker (some name)).length ≤ e →
      removeDocsIndexFuel fuel c (some name) =
        some (cleanupAfterRemoval (c.take s ++ c.drop (e + (getEndMarker (some name)).length))))
    ∧ (∀ c : Str, hasExistingSkillsIndex c = false → removeSkillsIndex c = c)
    ∧ (∀ (fuel : Nat) (c : Str) (p : Option Str), hasExistingIndex c p = false →
      removeDocsIndexFuel fuel c p = some c)
    ∧ removeSkillsIndex (SKILLS_START_MARKER ++ '\n' :: ("idx".toList ++ '\n' :: SKILLS_END_MARKER)) = [] := by
  refine ⟨?_, ?_, ?_, ?_, by decide⟩
  · intro c s e hS hE _
    exact removeSkillsIndex_splice c s e hS hE
  · intro fuel c name s e hname hS hE hord
    refine removeDocsIndexFuel_splice fuel c name s e hname hS hE ?_
    have hpos : 0 < (getStartMarker (some name)).length :=
      List.length_pos.2 (getStartMarker_ne_nil (some name))
    omega
  · intro c h
    unfold removeSkillsIndex
    rw [if_neg (by simp [h])]
  · intro fuel c p h
    unfold removeDocsIndexFuel
    rw [if_neg (by simp [h])]

/-- C9 witness: the splice equation at a concrete host file containing one
skills block between a heading and a footer. -/
theorem remove_block_behavior_witness :
    removeSkillsIndex (("# T\n\n").toList ++ SKILLS_START_MARKER
        ++ '\n' :: ("idx".toList ++ '\n' :: (SKILLS_END_MARKER ++ ("\n\nFooter").toList))) =
      cleanupAfterRemoval
        ((("# T\n\n").toList ++ SKILLS_START_MARKER
          ++ '\n' :: ("idx".toList ++ '\n' :: (SKILLS_END_MARKER ++ ("\n\nFooter").toList))).take 5
        ++ (("# T\n\n").toList ++ SKILLS_START_MARKER
          ++ '\n' :: ("idx".toList ++ '\n' :: (SKILLS_END_MARKER ++ ("\n\nFooter").toList))).drop
            (41 + SKILLS_END_MARKER.length)) :=
  remove_block_behavior_amended.1 _ 5 41 (by decide) (by decide) (by decide)

/-! C10: idempotence of removal. -/

theorem emitNl_all_nl (k : Nat) : ∀ c ∈ emitNl k, c = '\n' := by
  intro c hc
  unfold emitNl at hc
  split at hc
  · simp at hc
    exact hc
  · exact List.eq_of_mem_replicate hc

theorem collapseAux_pos_start : ∀ (s : Str) (k : Nat), 1 ≤ k → ∃ X, collapseAux k s = '\n' :: X := by
  intro s
  induction s with
  | nil =>
    intro k hk
    show ∃ X, emitNl k = '\n' :: X
    unfold emitNl
    split
    · exact ⟨['\n'], rfl⟩
    · rcases k with _ | k'
      · omega
      · exact ⟨List.replicate k' '\n', rfl⟩
  | cons c rest ih =>
    intro k hk
    by_cases hc : c = '\n'
    · show ∃ X, (if c = '\n' then collapseAux (k + 1) rest else emitNl k ++ c :: collapseAux 0 rest) = '\n' :: X
      rw [if_pos hc]
      exact ih (k + 1) (by omega)
    · show ∃ X, (if c = '\n' then collapseAux (k + 1) rest else emitNl k ++ c :: collapseAux 0 rest) = '\n' :: X
      rw [if_neg hc]
      have : ∃ Y, emitNl k = '\n' :: Y := by
        unfold emitNl
        split
        · exact ⟨['\n'], rfl⟩
        · rcases k with _ | k'
          · omega
          · exact ⟨List.replicate k' '\n', rfl⟩
      obtain ⟨Y, hY⟩ := this
      exact ⟨Y ++ c :: collapseAux 0 rest, by rw [hY]; rfl⟩

theorem occursIn_all_nl (x pat : Str) (hx : ∀ c ∈ x, c = '\n') (hne : pat ≠ [])
    (h : occursIn pat x) : '\n' ∈ pat := by
  obtain ⟨i, t, ht⟩ := h
  rcases pat with _ | ⟨a, as⟩
  · exact absurd rfl hne
  · have ha : a ∈ x.drop i := by
      rw [ht]
      exact List.mem_append.2 (Or.inl (List.mem_cons_self a as))
    have := hx a (List.drop_subset i x ha)
    subst this
    exact List.mem_cons_self _ _

theorem isStart_collapseAux : ∀ (s q : Str), '\n' ∉ q →
    isStart q (collapseAux 0 s) = true → isStart q s = true := by
  intro s
  induction s with
  | nil =>
    intro q _ h
    have : collapseAux 0 [] = [] := rfl
    rw [this] at h
    rcases q with _ | ⟨a, as⟩
    · rfl
    · simp [isStart] at h
  | cons c rest ih =>
    intro q hnl h
    rcases q with _ | ⟨a, as⟩
    · rfl
    · by_cases hc : c = '\n'
      · exfalso
        have hred : collapseAux 0 (c :: rest) = collapseAux 1 rest := by
          show (if c = '\n' then collapseAux (0 + 1) rest else emitNl 0 ++ c :: collapseAux 0 rest) =
            collapseAux 1 rest
          rw [if_pos hc]
        obtain ⟨X, hX⟩ := collapseAux_pos_start rest 1 (by omega)
        rw [hred, hX] at h
        simp only [isStart, Bool.and_eq_true, decide_eq_true_eq] at h
        exact hnl (h.1 ▸ List.mem_cons_self a as)
      · have hred : collapseAux 0 (c :: rest) = c :: collapseAux 0 rest := by
          show (if c = '\n' then collapseAux (0 + 1) rest else emitNl 0 ++ c :: collapseAux 0 rest) =
            c :: collapseAux 0 rest
          rw [if_neg hc]
          rfl
        rw [hred] at h
        simp only [isStart, Bool.and_eq_true, decide_eq_true_eq] at h ⊢
        refine ⟨h.1, ?_⟩
        exact ih as (fun hm => hnl (List.mem_cons_of_mem a hm)) h.2

theorem occursIn_cons_elim {pat : Str} {c : Char} {x : Str} (h : occursIn pat (c :: x)) :
    isStart pat (c :: x) = true ∨ occursIn pat x := by
  obtain ⟨i, hocc⟩ := h
  rcases i with _ | j
  · exact Or.inl ((occursAt_zero_iff pat (c :: x)).1 hocc)
  · exact Or.inr ⟨j, (occursAt_cons_succ pat c x j).1 hocc⟩

theorem occursIn_collapseAux (pat : Str) (hne : pat ≠ []) (hnl : '\n' ∉ pat) :
    ∀ (s : Str) (k : Nat), occursIn pat (collapseAux k s) → occursIn pat s := by
  intro s
  induction s with
  | nil =>
    intro k h
    exact absurd (occursIn_all_nl _ pat (emitNl_all_nl k) hne h) hnl
  | cons c rest ih =>
    intro k h
    by_cases hc : c = '\n'
    · have hred : collapseAux k (c :: rest) = collapseAux (k + 1) rest := by
        show (if c = '\n' then collapseAux (k + 1) rest else emitNl k ++ c :: collapseAux 0 rest) = _
        rw [if_pos hc]
      rw [hred] at h
      exact occursIn_cons_ext c pat rest (ih (k + 1) h)
    · have hred : collapseAux k (c :: rest) = emitNl k ++ c :: collapseAux 0 rest := by
        show (if c = '\n' then collapseAux (k + 1) rest else emitNl k ++ c :: collapseAux 0 rest) = _
        rw [if_neg hc]
      rw [hred] at h
      obtain ⟨i, hocc⟩ := h
      by_cases hlt : i < (emitNl k).length
      · exfalso
        have hp0 : 0 < pat.length := List.length_pos.2 hne
        have hchar := occursAt_getElem pat _ i hocc 0 hp0
        rw [Nat.add_zero] at hchar
        have hnlc : (emitNl k ++ c :: collapseAux 0 rest)[i]? = some '\n' := by
          rw [List.getElem?_append, if_pos hlt]
          have hg : (emitNl k)[i]? = some ((emitNl k)[i]) := List.getElem?_eq_getElem hlt
          rw [hg]
          exact congrArg some (emitNl_all_nl k _ (List.getElem_mem hlt))
        rw [hnlc] at hchar
        exact hnl (mem_of_getElem?_some hchar.symm)
      · push_neg at hlt
        have hocc2 := occursAt_drop pat (emitNl k) _ i hocc hlt
        have h2 : occursIn pat (c :: collapseAux 0 rest) := ⟨i - (emitNl k).length, hocc2⟩
        rcases occursIn_cons_elim h2 with hst | hin
        · rcases pat with _ | ⟨a, as⟩
          · exact absurd rfl hne
          · simp only [isStart, Bool.and_eq_true, decide_eq_true_eq] at hst
            have has : isStart as rest = true :=
              isStart_collapseAux rest as (fun hm => hnl (List.mem_cons_of_mem a hm)) hst.2
            refine ⟨0, ?_⟩
            rw [occursAt_zero_iff]
            simp only [isStart, Bool.and_eq_true, decide_eq_true_eq]
            exact ⟨hst.1, has⟩
        · exact occursIn_cons_ext c pat rest (ih 0 hin)

theorem occursIn_collapse (pat s : Str) (hne : pat ≠ []) (hnl : '\n' ∉ pat)
    (h : occursIn pat (collapseNewlines s)) : occursIn pat s :=
  occursIn_collapseAux pat hne hnl s 0 h

theorem trimEnd_decomp (s : Str) : ∃ t, s = trimEnd s ++ t := by
  refine ⟨(s.reverse.takeWhile isWsChar).reverse, ?_⟩
  unfold trimEnd
  conv_lhs => rw [← List.reverse_reverse s, ← List.takeWhile_append_dropWhile isWsChar s.reverse]
  rw [List.reverse_append]

theorem occursIn_trimEnd (pat s : Str) (h : occursIn pat (trimEnd s)) : occursIn pat s := by
  obtain ⟨t, ht⟩ := trimEnd_decomp s
  rw [ht]
  exact occursIn_append_ext_right pat _ t h

theorem occursIn_append_nl (pat t : Str) (hne : pat ≠ []) (hnl : '\n' ∉ pat)
    (h : occursIn pat (t ++ ['\n'])) : occursIn pat t := by
  obtain ⟨i, hocc⟩ := h
  have hsplit : (t ++ ['\n'] : Str) = t ++ '\n' :: [] := rfl
  rw [hsplit] at hocc
  rcases occursAt_nlSplit pat t [] i hnl hocc with hL | ⟨_, hR⟩
  · exact ⟨i, occursAt_take pat t ('\n' :: []) i hocc hL⟩
  · exact absurd ((occursAt_nil_iff pat _).1 hR) hne

theorem occursIn_cleanup (pat s : Str) (hne : pat ≠ []) (hnl : '\n' ∉ pat)
    (h : occursIn pat (cleanupAfterRemoval s)) : occursIn pat s := by
  unfold cleanupAfterRemoval at h
  by_cases ht : trimEnd (collapseNewlines s) = []
  · rw [if_pos ht, ht] at h
    obtain ⟨i, hocc⟩ := h
    exact absurd ((occursAt_nil_iff pat i).1 hocc) hne
  · rw [if_neg ht] at h
    exact occursIn_collapse pat s hne hnl
      (occursIn_trimEnd pat _ (occursIn_append_nl pat _ hne hnl h))

theorem firstOcc?_cleanup_none (pat s : Str) (hne : pat ≠ []) (hnl : '\n' ∉ pat)
    (h : firstOcc? pat s = none) : firstOcc? pat (cleanupAfterRemoval s) = none := by
  rw [firstOcc?_eq_none_iff] at h ⊢
  intro i hocc
  obtain ⟨j, hj⟩ := occursIn_cleanup pat s hne hnl ⟨i, hocc⟩
  exact h j hj

theorem sweepLoop_exit : ∀ (fuel : Nat) (c L : Str), sweepLoop fuel c = some L →
    containsSub START_MARKER_PREFIX L = false := by
  intro fuel
  induction fuel with
  | zero =>
    intro c L h
    by_cases hg : containsSub START_MARKER_PREFIX c = true
    · show _
      unfold sweepLoop at h
      rw [if_pos hg] at h
      exact absurd h (by simp)
    · unfold sweepLoop at h
      rw [if_neg hg] at h
      injection h with h1
      subst h1
      simpa using hg
  | succ n ih =>
    intro c L h
    by_cases hg : containsSub START_MARKER_PREFIX c = true
    · unfold sweepLoop at h
      rw [if_pos hg] at h
      exact ih (sweepStep c) L h
    · unfold sweepLoop at h
      rw [if_neg hg] at h
      injection h with h1
      subst h1
      simpa using hg

/-- C10 counterexample: content holding two skills blocks: the first removal
deletes only the first block, the second removal then deletes the remaining
one, so a second pass changes the result of the first. -/
theorem remove_idempotent_cx :
    removeSkillsIndex (removeSkillsIndex
      ((SKILLS_START_MARKER ++ '\n' :: ("a".toList ++ '\n' :: SKILLS_END_MARKER))
        ++ '\n' :: (SKILLS_START_MARKER ++ '\n' :: ("b".toList ++ '\n' :: SKILLS_END_MARKER))))
    ≠ removeSkillsIndex
      ((SKILLS_START_MARKER ++ '\n' :: ("a".toList ++ '\n' :: SKILLS_END_MARKER))
        ++ '\n' :: (SKILLS_START_MARKER ++ '\n' :: ("b".toList ++ '\n' :: SKILLS_END_MARKER))) := by
  decide

/-- C10 (amended): removal is idempotent provided the removal of the first
block leaves no further start marker: for removeSkillsIndex and
provider-specific removeDocsIndex this is a hypothesis on the spliced
content; for the identifier-less sweep it holds unconditionally whenever the
sweep terminates. -/
theorem remove_idempotent_amended :
    (∀ (c : Str) (s e : Nat),
      firstOcc? SKILLS_START_MARKER c = some s →
      firstOcc? SKILLS_END_MARKER c = some e →
      firstOcc? SKILLS_START_MARKER (c.take s ++ c.drop (e + SKILLS_END_MARKER.length)) = none →
      removeSkillsIndex (removeSkillsIndex c) = removeSkillsIndex c)
    ∧ (∀ (fuel : Nat) (c name : Str) (s e : Nat) (r : Str), name ≠ [] →
      firstOcc? (getStartMarker (some name)) c = some s →
      firstOcc? (getEndMarker (some name)) c = some e →
      s < e + (getEndMarker (some name)).length →
      '\n' ∉ getStartMarker (some name) →
      firstOcc? (getStartMarker (some name))
        (c.take s ++ c.drop (e + (getEndMarker (some name)).length)) = none →
      removeDocsIndexFuel fuel c (some name) = some r →
      ∀ fuel2 : Nat, removeDocsIndexFuel fuel2 r (some name) = some r)
    ∧ (∀ (fuel fuel2 : Nat) (c r : Str), removeDocsIndexFuel fuel c none = some r →
      removeDocsIndexFuel fuel2 r none = some r) := by
  refine ⟨?_, ?_, ?_⟩
  · intro c s e hS hE hclean
    rw [removeSkillsIndex_splice c s e hS hE]
    have hfalse : hasExistingSkillsIndex
        (cleanupAfterRemoval (c.take s ++ c.drop (e + SKILLS_END_MARKER.length))) = false := by
      unfold hasExistingSkillsIndex
      rw [containsSub_eq_false_iff]
      exact firstOcc?_cleanup_none _ _ (by decide) (by decide) hclean
    unfold removeSkillsIndex
    rw [if_neg (by simp [hfalse])]
  · intro fuel c name s e r hname hS hE hord hnlS hclean hr
    rw [removeDocsIndexFuel_splice fuel c name s e hname hS hE hord] at hr
    injection hr with hr1
    intro fuel2
    have hfalse : hasExistingIndex r (some name) = false := by
      show (if name = [] then containsSub START_MARKER_PREFIX r
        else containsSub (getStartMarker (some name)) r) = false
      rw [if_neg hname, containsSub_eq_false_iff, ← hr1]
      exact firstOcc?_cleanup_none _ _ (getStartMarker_ne_nil (some name)) hnlS hclean
    unfold removeDocsIndexFuel
    rw [if_neg (by simp [hfalse])]
  · intro fuel fuel2 c r h
    by_cases hg : hasExistingIndex c none = true
    · unfold removeDocsIndexFuel at h
      rw [if_pos hg] at h
      obtain ⟨L, hL, hrL⟩ := Option.map_eq_some'.1 h
      have hexit := sweepLoop_exit fuel c L hL
      have hfalse : hasExistingIndex r none = false := by
        show containsSub START_MARKER_PREFIX r = false
        rw [containsSub_eq_false_iff, ← hrL]
        exact firstOcc?_cleanup_none _ _ (by decide) (by decide)
          ((containsSub_eq_false_iff _ _).1 hexit)
      unfold removeDocsIndexFuel
      rw [if_neg (by simp [hfalse])]
    · unfold removeDocsIndexFuel at h
      rw [if_neg hg] at h
      injection h with h1
      subst h1
      unfold removeDocsIndexFuel
      rw [if_neg hg]

/-- C10 witness: skills removal idempotence on a host file with one block. -/
theorem remove_idempotent_witness :
    removeSkillsIndex (removeSkillsIndex
      (("A\n\n").toList ++ SKILLS_START_MARKER
        ++ '\n' :: ("i".toList ++ '\n' :: (SKILLS_END_MARKER ++ ['\n'])))) =
    removeSkillsIndex
      (("A\n\n").toList ++ SKILLS_START_MARKER
        ++ '\n' :: ("i".toList ++ '\n' :: (SKILLS_END_MARKER ++ ['\n']))) :=
  remove_idempotent_amended.1 _ 3 37 (by decide) (by decide) (by decide)

/-! C4: provider-specific removal and other blocks. -/

/-- C4 counterexample: removing provider bbb from a file whose aaa block body
contains a run of three newlines also rewrites the aaa block, because the
newline collapse applies to the entire remaining content: the aaa block text
no longer occurs character for character in the result. -/
theorem remove_specific_provider_cx :
    removeDocsIndexFuel 1
      ((getStartMarker (some ("aaa".toList)) ++ ("\nx\n\n\ny\n").toList
          ++ getEndMarker (some ("aaa".toList)))
        ++ ("\n\n").toList
        ++ (getStartMarker (some ("bbb".toList)) ++ ("\nz\n").toList
          ++ getEndMarker (some ("bbb".toList)))
        ++ ("\n").toList)
      (some ("bbb".toList)) ≠ none
    ∧ containsSub
        (getStartMarker (some ("aaa".toList)) ++ ("\nx\n\n\ny\n").toList
          ++ getEndMarker (some ("aaa".toList)))
        ((removeDocsIndexFuel 1
          ((getStartMarker (some ("aaa".toList)) ++ ("\nx\n\n\ny\n").toList
              ++ getEndMarker (some ("aaa".toList)))
            ++ ("\n\n").toList
            ++ (getStartMarker (some ("bbb".toList)) ++ ("\nz\n").toList
              ++ getEndMarker (some ("bbb".toList)))
            ++ ("\n").toList)
          (some ("bbb".toList))).getD []) = false := by
  decide

/-- C4 (amended): provider-specific removal deletes exactly the named block
and keeps the remaining content, except that the global newline-collapse and
trailing normalization also apply to the rest; when the remaining content
already has no run of three newlines and ends with exactly one trailing
newline, it is returned character for character, and every substring of the
content before or after the removed block still occurs in the result. -/
theorem remove_specific_provider_amended :
    ∀ (fuel : Nat) (c name : Str) (s e : Nat), name ≠ [] →
      firstOcc? (getStartMarker (some name)) c = some s →
      firstOcc? (getEndMarker (some name)) c = some e →
      s + (getStartMarker (some name)).length ≤ e →
      collapseNewlines (c.take s ++ c.drop (e + (getEndMarker (some name)).length)) =
        c.take s ++ c.drop (e + (getEndMarker (some name)).length) →
      trimEnd (c.take s ++ c.drop (e + (getEndMarker (some name)).length)) ++ ['\n'] =
        c.take s ++ c.drop (e + (getEndMarker (some name)).length) →
      trimEnd (c.take s ++ c.drop (e + (getEndMarker (some name)).length)) ≠ [] →
      removeDocsIndexFuel fuel c (some name) =
        some (c.take s ++ c.drop (e + (getEndMarker (some name)).length))
      ∧ (∀ pat : Str, occursIn pat (c.take s) →
          occursIn pat (c.take s ++ c.drop (e + (getEndMarker (some name)).length)))
      ∧ (∀ pat : Str, occursIn pat (c.drop (e + (getEndMarker (some name)).length)) →
          occursIn pat (c.take s ++ c.drop (e + (getEndMarker (some name)).length))) := by
  intro fuel c name s e hname hS hE hord hcol htr htne
  have hpos : 0 < (getStartMarker (some name)).length :=
    List.length_pos.2 (getStartMarker_ne_nil (some name))
  have hmain := removeDocsIndexFuel_splice fuel c name s e hname hS hE (by omega)
  refine ⟨?_, fun pat h => occursIn_append_ext_right _ _ _ h,
    fun pat h => occursIn_append_ext_left _ _ _ h⟩
  rw [hmain]
  congr 1
  unfold cleanupAfterRemoval
  rw [hcol, if_neg htne]
  exact htr

/-- C4 witness: removing the bbb block from a tidy two-provider file returns
the remaining content, aaa block included, character for character. -/
theorem remove_specific_provider_witness :
    removeDocsIndexFuel 1
      ((getStartMarker (some ("bbb".toList)) ++ ("\nz\n").toList
          ++ getEndMarker (some ("bbb".toList)))
        ++ ("\n\n").toList
        ++ (getStartMarker (some ("aaa".toList)) ++ ("\nx\n").toList
          ++ getEndMarker (some ("aaa".toList)))
        ++ ("\n").toList)
      (some ("bbb".toList)) =
    some (((getStartMarker (some ("bbb".toList)) ++ ("\nz\n").toList
          ++ getEndMarker (some ("bbb".toList)))
        ++ ("\n\n").toList
        ++ (getStartMarker (some ("aaa".toList)) ++ ("\nx\n").toList
          ++ getEndMarker (some ("aaa".toList)))
        ++ ("\n").toList).take 0
      ++ ((getStartMarker (some ("bbb".toList)) ++ ("\nz\n").toList
          ++ getEndMarker (some ("bbb".toList)))
        ++ ("\n\n").toList
        ++ (getStartMarker (some ("aaa".toList)) ++ ("\nx\n").toList
          ++ getEndMarker (some ("aaa".toList)))
        ++ ("\n").toList).drop (37 + (getEndMarker (some ("bbb".toList))).length)) :=
  (remove_specific_provider_amended 1 _ ("bbb".toList) 0 37 (by decide) (by decide) (by decide)
    (by decide) (by decide) (by decide) (by decide)).1

/-! C1: idempotence of injection. -/

theorem injectBlock_append (S E : Str) (hasB : Str → Bool) (c b : Str) (hB : hasB c = false) :
    injectBlock S E hasB c b =
      c ++ (if endsWithNewline c then ['\n'] else ['\n', '\n'])
        ++ (S ++ '\n' :: (b ++ '\n' :: E)) ++ ['\n'] := by
  unfold injectBlock
  rw [if_neg (by simp [hB])]

theorem injectBlock_replace (S E : Str) (hasB : Str → Bool) (c b : Str) (hB : hasB c = true)
    {s e : Nat} (hS : firstOcc? S c = some s) (hE : firstOcc? E c = some e) :
    injectBlock S E hasB c b =
      c.take s ++ (S ++ '\n' :: (b ++ '\n' :: E)) ++ c.drop (e + E.length) := by
  unfold injectBlock
  rw [if_pos hB, jsIndexOf_eq hS, jsIndexOf_eq hE, jsSlice_take, natCast_add_length,
    jsSliceFrom_drop]

theorem no_E_before (E A b t : Str) (hEnl : '\n' ∉ E) (hEne : E ≠ [])
    (hA : ∀ i, i + E.length ≤ A.length → ¬ occursAt E A i)
    (hb : firstOcc? E b = none) :
    ∀ i, i < A.length + (1 + (b.length + 1)) →
      ¬ occursAt E (A ++ '\n' :: (b ++ '\n' :: (E ++ t))) i := by
  intro i hi hocc
  rcases occursAt_nlSplit E A _ i hEnl hocc with hL | ⟨hge, hocc2⟩
  · exact hA i hL (occursAt_take E A _ i hocc hL)
  · rcases occursAt_nlSplit E b _ _ hEnl hocc2 with hL2 | ⟨hge2, _⟩
    · exact (firstOcc?_eq_none_iff E b).1 hb _ (occursAt_take E b _ _ hocc2 hL2)
    · omega

theorem injectBlock_idem_append_aux
    (S E : Str) (hasB : Str → Bool) (c b sepRest : Str)
    (hSnl : '\n' ∉ S) (hEnl : '\n' ∉ E) (hSne : S ≠ []) (hEne : E ≠ [])
    (hES : firstOcc? E S = none)
    (hasB_app : ∀ u v, hasB (u ++ (S ++ v)) = true)
    (hb : firstOcc? E b = none)
    (hSc : firstOcc? S c = none) (hEc : firstOcc? E c = none)
    (hsep : ∀ ch ∈ sepRest, ch = '\n')
    (hr : injectBlock S E hasB c b
      = (c ++ '\n' :: sepRest) ++ (S ++ '\n' :: (b ++ '\n' :: (E ++ ['\n'])))) :
    injectBlock S E hasB (injectBlock S E hasB c b) b = injectBlock S E hasB c b := by
  set A := c ++ '\n' :: sepRest with hA
  set r := injectBlock S E hasB c b with hrdef
  have hBr : hasB r = true := by
    rw [hr]
    exact hasB_app A _
  have hoccS : occursAt S r A.length :=
    ⟨'\n' :: (b ++ '\n' :: (E ++ ['\n'])), by rw [hr, List.drop_left]⟩
  have hSpos : 0 < S.length := List.length_pos.2 hSne
  have hEpos : 0 < E.length := List.length_pos.2 hEne
  have hnoS : ∀ i, i < A.length → ¬ occursAt S r i := by
    intro i hi hocc
    rw [hr] at hocc
    have hform : A ++ (S ++ '\n' :: (b ++ '\n' :: (E ++ ['\n'])))
        = c ++ '\n' :: (sepRest ++ (S ++ '\n' :: (b ++ '\n' :: (E ++ ['\n'])))) := by
      rw [hA]
      simp
    rw [hform] at hocc
    rcases occursAt_nlSplit S c _ i hSnl hocc with hL | ⟨hge, hocc2⟩
    · exact (firstOcc?_eq_none_iff S c).1 hSc i (occursAt_take S c _ i hocc hL)
    · have hilen : i < A.length := hi
      have hj : i - c.length - 1 < sepRest.length := by
        rw [hA] at hilen
        simp only [List.length_append, List.length_cons] at hilen
        omega
      have hchar := occursAt_getElem S _ _ hocc2 0 hSpos
      rw [Nat.add_zero] at hchar
      have hnlval : (sepRest ++ (S ++ '\n' :: (b ++ '\n' :: (E ++ ['\n']))))[i - c.length - 1]?
          = some '\n' := by
        rw [List.getElem?_append, if_pos hj, List.getElem?_eq_getElem hj]
        exact congrArg some (hsep _ (List.getElem_mem hj))
      rw [hnlval] at hchar
      exact hSnl (mem_of_getElem?_some hchar.symm)
  have hfS : firstOcc? S r = some A.length :=
    (firstOcc?_eq_some_iff S r A.length).2 ⟨hoccS, hnoS⟩
  set U := A ++ (S ++ '\n' :: (b ++ ['\n'])) with hU
  have hsplit2 : r = U ++ (E ++ ['\n']) := by
    rw [hr, hU]
    simp
  have hoccE : occursAt E r U.length := ⟨['\n'], by rw [hsplit2, List.drop_left]⟩
  have hUlen : U.length = (A ++ S).length + (1 + (b.length + 1)) := by
    rw [hU]
    simp only [List.length_append, List.length_cons, List.length_nil]
    omega
  have hnoE : ∀ i, i < U.length → ¬ occursAt E r i := by
    intro i hi hocc
    have hform : r = (A ++ S) ++ '\n' :: (b ++ '\n' :: (E ++ ['\n'])) := by
      rw [hr]
      simp
    rw [hform] at hocc
    refine no_E_before E (A ++ S) b ['\n'] hEnl hEne ?_ hb i (by omega) hocc
    intro i2 hle hocc3
    have hform2 : A ++ S = c ++ '\n' :: (sepRest ++ S) := by
      rw [hA]
      simp
    rw [hform2] at hocc3
    rcases occursAt_nlSplit E c _ i2 hEnl hocc3 with hL | ⟨hge, hocc4⟩
    · exact (firstOcc?_eq_none_iff E c).1 hEc i2 (occursAt_take E c _ i2 hocc3 hL)
    · by_cases hj : i2 - c.length - 1 + E.length ≤ sepRest.length
      · have hin := occursAt_take E sepRest S _ hocc4 hj
        exact hEnl (occursIn_all_nl sepRest E hsep hEne ⟨_, hin⟩)
      · by_cases hj2 : sepRest.length ≤ i2 - c.length - 1
        · have hin := occursAt_drop E sepRest S _ hocc4 hj2
          exact (firstOcc?_eq_none_iff E S).1 hES _ hin
        · push_neg at hj hj2
          have hchar := occursAt_getElem E _ _ hocc4 0 hEpos
          rw [Nat.add_zero] at hchar
          have hlt : i2 - c.length - 1 < sepRest.length := by omega
          have hnlval : (sepRest ++ S)[i2 - c.length - 1]? = some '\n' := by
            rw [List.getElem?_append, if_pos hlt, List.getElem?_eq_getElem hlt]
            exact congrArg some (hsep _ (List.getElem_mem hlt))
          rw [hnlval] at hchar
          exact hEnl (mem_of_getElem?_some hchar.symm)
  have hfE : firstOcc? E r = some U.length :=
    (firstOcc?_eq_some_iff E r U.length).2 ⟨hoccE, hnoE⟩
  rw [injectBlock_replace S E hasB r b hBr hfS hfE]
  have htake : r.take A.length = A := by
    rw [hr, List.take_left]
  have hdrop : r.drop (U.length + E.length) = ['\n'] := by
    rw [hsplit2, List.drop_append, List.drop_left]
  rw [htake, hdrop, hr]
  simp

theorem injectBlock_idem (S E : Str) (hasB : Str → Bool) (c b : Str)
    (hSnl : '\n' ∉ S) (hEnl : '\n' ∉ E) (hSne : S ≠ []) (hEne : E ≠ [])
    (hES : firstOcc? E S = none)
    (hasB_app : ∀ u v, hasB (u ++ (S ++ v)) = true)
    (hb : firstOcc? E b = none)
    (hc : (hasB c = false ∧ firstOcc? S c = none ∧ firstOcc? E c = none)
      ∨ (∃ s e, firstOcc? S c = some s ∧ firstOcc? E c = some e ∧ s + S.length ≤ e)) :
    injectBlock S E hasB (injectBlock S E hasB c b) b = injectBlock S E hasB c b := by
  rcases hc with ⟨hBc, hSc, hEc⟩ | ⟨s, e, hS, hE, hord⟩
  · have hr0 := injectBlock_append S E hasB c b hBc
    by_cases hend : endsWithNewline c = true
    · refine injectBlock_idem_append_aux S E hasB c b [] hSnl hEnl hSne hEne hES hasB_app hb
        hSc hEc (by intro ch hch; simp at hch) ?_
      rw [hr0, if_pos hend]
      simp
    · refine injectBlock_idem_append_aux S E hasB c b ['\n'] hSnl hEnl hSne hEne hES hasB_app hb
        hSc hEc (by intro ch hch; simp at hch; exact hch) ?_
      rw [hr0, if_neg hend]
      simp
  · obtain ⟨hoccS_c, hbelowS⟩ := (firstOcc?_eq_some_iff S c s).1 hS
    obtain ⟨hoccE_c, hbelowE⟩ := (firstOcc?_eq_some_iff E c e).1 hE
    obtain ⟨tS, htS⟩ := hoccS_c
    obtain ⟨tE, htE⟩ := hoccE_c
    have hSpos : 0 < S.length := List.length_pos.2 hSne
    have hEpos : 0 < E.length := List.length_pos.2 hEne
    have hsle : s + S.length ≤ c.length := occursAt_le_length S c s ⟨tS, htS⟩ hSne
    have htks : (c.take s).length = s := by
      rw [List.length_take]
      omega
    have hsplitc : c = c.take s ++ (S ++ tS) := by
      conv_lhs => rw [← List.take_append_drop s c]
      rw [htS]
    have hBc : hasB c = true := by
      conv_lhs => rw [hsplitc]
      exact hasB_app _ _
    have hdropE : c.drop (e + E.length) = tE := by
      rw [← List.drop_drop, htE, List.drop_left]
    have hr : injectBlock S E hasB c b = c.take s ++ (S ++ '\n' :: (b ++ '\n' :: E)) ++ tE := by
      rw [injectBlock_replace S E hasB c b hBc hS hE, hdropE]
    set r := injectBlock S E hasB c b with hrdef
    set A := c.take s ++ S with hA2
    have hcA : c = A ++ tS := by
      rw [hA2, List.append_assoc]
      exact hsplitc
    have hAlen : A.length = s + S.length := by
      rw [hA2]
      simp [htks]
    have hform : r = A ++ '\n' :: (b ++ '\n' :: (E ++ tE)) := by
      rw [hr, hA2]
      simp
    have hshape : r = c.take s ++ (S ++ '\n' :: (b ++ '\n' :: (E ++ tE))) := by
      rw [hform, hA2]
      simp
    have hBr : hasB r = true := by
      rw [hshape]
      exact hasB_app _ _
    have hoccS_r : occursAt S r s :=
      ⟨'\n' :: (b ++ '\n' :: (E ++ tE)), by rw [hshape, List.drop_left' htks]⟩
    have hnoS_r : ∀ i, i < s → ¬ occursAt S r i := by
      intro i hi hocc
      rw [hform] at hocc
      have hbnd : i + S.length ≤ A.length := by omega
      have hinA := occursAt_take S A _ i hocc hbnd
      have hocc_c : occursAt S c i := by
        rw [hcA]
        exact occursAt_append_left S A tS i hinA
      exact hbelowS i hi hocc_c
    have hfS_r : firstOcc? S r = some s := (firstOcc?_eq_some_iff S r s).2 ⟨hoccS_r, hnoS_r⟩
    set U := A ++ '\n' :: (b ++ ['\n']) with hU
    have hUlen : U.length = A.length + (1 + (b.length + 1)) := by
      rw [hU]
      simp only [List.length_append, List.length_cons, List.length_nil]
      omega
    have hsplit2 : r = U ++ (E ++ tE) := by
      rw [hform, hU]
      simp
    have hoccE_r : occursAt E r U.length := ⟨tE, by rw [hsplit2, List.drop_left]⟩
    have hnoE_r : ∀ i, i < U.length → ¬ occursAt E r i := by
      intro i hi hocc
      rw [hform] at hocc
      refine no_E_before E A b tE hEnl hEne ?_ hb i (by omega) hocc
      intro i2 hle hocc2
      have hocc_c : occursAt E c i2 := by
        rw [hcA]
        exact occursAt_append_left E A tS i2 hocc2
      have hge_e : e ≤ i2 := by
        by_contra hlt
        push_neg at hlt
        exact hbelowE i2 hlt hocc_c
      omega
    have hfE_r : firstOcc? E r = some U.length :=
      (firstOcc?_eq_some_iff E r U.length).2 ⟨hoccE_r, hnoE_r⟩
    rw [injectBlock_replace S E hasB r b hBr hfS_r hfE_r]
    have htake_r : r.take s = c.take s := by
      rw [hshape, List.take_left' htks]
    have hdrop_r : r.drop (U.length + E.length) = tE := by
      rw [hsplit2, List.drop_append, List.drop_left]
    rw [htake_r, hdrop_r, hr]

theorem occursIn_app_middle (M u v : Str) : occursIn M (u ++ (M ++ v)) :=
  ⟨u.length + 0, occursAt_append_right M u (M ++ v) 0 ⟨v, rfl⟩⟩

theorem hasExistingIndex_app (p : Option Str) (u v : Str) :
    hasExistingIndex (u ++ (getStartMarker p ++ v)) p = true := by
  cases p with
  | none =>
    show containsSub START_MARKER_PREFIX _ = true
    rw [containsSub_iff]
    have h : u ++ (getStartMarker none ++ v)
        = u ++ (START_MARKER_PREFIX ++ (MARKER_SUFFIX ++ v)) := by
      show u ++ ((START_MARKER_PREFIX ++ MARKER_SUFFIX) ++ v) = _
      rw [List.append_assoc]
    rw [h]
    exact occursIn_app_middle _ u _
  | some name =>
    by_cases hn : name = []
    · show (if name = [] then containsSub START_MARKER_PREFIX _ else _) = true
      rw [if_pos hn]
      rw [containsSub_iff]
      have h : u ++ (getStartMarker (some name) ++ v)
          = u ++ (START_MARKER_PREFIX ++ (MARKER_SUFFIX ++ v)) := by
        show u ++ ((if name = [] then START_MARKER_PREFIX ++ MARKER_SUFFIX else _) ++ v) = _
        rw [if_pos hn, List.append_assoc]
      rw [h]
      exact occursIn_app_middle _ u _
    · show (if name = [] then _ else containsSub (getStartMarker (some name)) _) = true
      rw [if_neg hn]
      rw [containsSub_iff]
      exact occursIn_app_middle _ u _

theorem hasExistingSkillsIndex_app (u v : Str) :
    hasExistingSkillsIndex (u ++ (SKILLS_START_MARKER ++ v)) = true := by
  show containsSub SKILLS_START_MARKER _ = true
  rw [containsSub_iff]
  exact occursIn_app_middle _ u _

theorem injectIndex_eq_injectBlock (c b : Str) (p : Option Str) :
    injectIndex c b p
      = injectBlock (getStartMarker p) (getEndMarker p) (fun s => hasExistingIndex s p) c b :=
  rfl

theorem injectSkillsIndex_eq_injectBlock (c b : Str) :
    injectSkillsIndex c b
      = injectBlock SKILLS_START_MARKER SKILLS_END_MARKER hasExistingSkillsIndex c b :=
  rfl

/-- C1 (refuted as stated): injecting twice is not always the same as injecting
once.  Content equal to the bare end-marker text has no start marker, so the
first call appends a block; the second call then finds the start marker but
splices at the FIRST end-marker occurrence, which is the pre-existing one at
index 0, mangling the result. -/
theorem inject_not_idempotent_cx :
    injectIndex
        (injectIndex ("<!-- AGENTS-MD-EMBED-END -->".toList) ("X".toList) none)
        ("X".toList) none
      ≠ injectIndex ("<!-- AGENTS-MD-EMBED-END -->".toList) ("X".toList) none := by
  decide

/-- C1 (amended): injection is idempotent under well-formedness side
conditions.  For the docs injector: the markers contain no newline, the end
marker does not occur inside the start marker or inside the injected body, and
the content either holds no marker material at all or holds a first start
marker strictly before a first end marker (the healthy layouts).  For the
skills injector only the conditions on the body and the content remain, the
marker-level facts being concrete.  Without these conditions idempotence
fails (inject_not_idempotent_cx). -/
theorem inject_idempotent_amended :
    (∀ (c b : Str) (p : Option Str),
      '\n' ∉ getStartMarker p → '\n' ∉ getEndMarker p →
      firstOcc? (getEndMarker p) (getStartMarker p) = none →
      firstOcc? (getEndMarker p) b = none →
      ((hasExistingIndex c p = false ∧ firstOcc? (getStartMarker p) c = none
          ∧ firstOcc? (getEndMarker p) c = none)
        ∨ (∃ s e, firstOcc? (getStartMarker p) c = some s
            ∧ firstOcc? (getEndMarker p) c = some e
            ∧ s + (getStartMarker p).length ≤ e)) →
      injectIndex (injectIndex c b p) b p = injectIndex c b p)
    ∧ (∀ c b : Str,
      firstOcc? SKILLS_END_MARKER b = none →
      ((hasExistingSkillsIndex c = false ∧ firstOcc? SKILLS_START_MARKER c = none
          ∧ firstOcc? SKILLS_END_MARKER c = none)
        ∨ (∃ s e, firstOcc? SKILLS_START_MARKER c = some s
            ∧ firstOcc? SKILLS_END_MARKER c = some e
            ∧ s + SKILLS_START_MARKER.length ≤ e)) →
      injectSkillsIndex (injectSkillsIndex c b) b = injectSkillsIndex c b) := by
  constructor
  · intro c b p h1 h2 h3 h4 h5
    simp only [injectIndex_eq_injectBlock]
    exact injectBlock_idem _ _ _ c b h1 h2 (getStartMarker_ne_nil p) (getEndMarker_ne_nil p)
      h3 (fun u v => hasExistingIndex_app p u v) h4 h5
  · intro c b h4 h5
    simp only [injectSkillsIndex_eq_injectBlock]
    exact injectBlock_idem _ _ _ c b (by decide) (by decide) (by decide) (by decide)
      (by decide) (fun u v => hasExistingSkillsIndex_app u v) h4 h5

/-- Witness for C1: a concrete healthy input satisfying every hypothesis. -/
theorem inject_idempotent_witness :
    injectIndex (injectIndex ("# P\n".toList) ("body".toList) none) ("body".toList) none
      = injectIndex ("# P\n".toList) ("body".toList) none :=
  inject_idempotent_amended.1 ("# P\n".toList) ("body".toList) none (by decide) (by decide)
    (by decide) (by decide) (Or.inl ⟨by decide, by decide, by decide⟩)

/-! C7: buildDocTree determinism and sortedness. -/

theorem strLe_refl : ∀ a : Str, strLe a a = true
  | [] => rfl
  | c :: cs => by simp [strLe, strLe_refl cs]

theorem strLe_total : ∀ a b : Str, (strLe a b || strLe b a) = true
  | [], b => by simp [strLe]
  | a :: as, [] => by simp [strLe]
  | a :: as, b :: bs => by
    by_cases h : a = b
    · subst h
      simp only [strLe, if_pos rfl]
      exact strLe_total as bs
    · simp only [strLe, if_neg h, if_neg (Ne.symm h), Bool.or_eq_true, decide_eq_true_eq]
      exact lt_or_gt_of_ne h

theorem strLe_trans : ∀ a b c : Str, strLe a b = true → strLe b c = true → strLe a c = true
  | [], _, _, _, _ => rfl
  | _ :: _, [], _, h1, _ => by simp [strLe] at h1
  | _ :: _, _ :: _, [], _, h2 => by simp [strLe] at h2
  | x :: xs, y :: ys, z :: zs, h1, h2 => by
    by_cases hxy : x = y
    · subst hxy
      simp only [strLe, if_pos rfl] at h1
      by_cases hyz : x = z
      · subst hyz
        simp only [strLe, if_pos rfl] at h2 ⊢
        exact strLe_trans _ _ _ h1 h2
      · simp only [strLe, if_neg hyz] at h2 ⊢
        exact h2
    · simp only [strLe, if_neg hxy] at h1
      have hxy2 : x < y := of_decide_eq_true h1
      by_cases hyz : y = z
      · subst hyz
        simp only [strLe, if_neg hxy]
        exact h1
      · simp only [strLe, if_neg hyz] at h2
        have hyz2 : y < z := of_decide_eq_true h2
        have hxz : x < z := lt_trans hxy2 hyz2
        simp only [strLe, if_neg (ne_of_lt hxz)]
        exact decide_eq_true hxz

theorem strLe_antisymm : ∀ a b : Str, strLe a b = true → strLe b a = true → a = b
  | [], [], _, _ => rfl
  | [], _ :: _, _, h2 => by simp [strLe] at h2
  | _ :: _, [], h1, _ => by simp [strLe] at h1
  | x :: xs, y :: ys, h1, h2 => by
    by_cases hxy : x = y
    · subst hxy
      simp only [strLe, if_pos rfl] at h1 h2
      rw [strLe_antisymm _ _ h1 h2]
    · simp only [strLe, if_neg hxy, if_neg (Ne.symm hxy)] at h1 h2
      exact absurd (of_decide_eq_true h2) (lt_asymm (of_decide_eq_true h1))

theorem fileLe_trans (a b c : DocFile) (h1 : fileLe a b = true) (h2 : fileLe b c = true) :
    fileLe a c = true := strLe_trans _ _ _ h1 h2

theorem fileLe_total (a b : DocFile) : (fileLe a b || fileLe b a) = true := strLe_total _ _

theorem fileLe_antisymm (a b : DocFile) (h1 : fileLe a b = true) (h2 : fileLe b a = true) :
    a = b := by
  obtain ⟨pa⟩ := a
  obtain ⟨pb⟩ := b
  rw [strLe_antisymm pa pb h1 h2]

instance : IsAntisymm DocFile (fun a b => fileLe a b = true) := ⟨fileLe_antisymm⟩

theorem secLe_trans (a b c : DocSection) (h1 : secLe a b = true) (h2 : secLe b c = true) :
    secLe a c = true := strLe_trans _ _ _ h1 h2

theorem secLe_total (a b : DocSection) : (secLe a b || secLe b a) = true := strLe_total _ _

theorem mergeSort_fileLe_eq {l1 l2 : List DocFile} (h : l1.Perm l2) :
    l1.mergeSort fileLe = l2.mergeSort fileLe :=
  List.eq_of_perm_of_sorted
    ((l1.mergeSort_perm fileLe).trans (h.trans (l2.mergeSort_perm fileLe).symm))
    (List.sorted_mergeSort fileLe_trans fileLe_total l1)
    (List.sorted_mergeSort fileLe_trans fileLe_total l2)

theorem eq_of_perm_of_sortedName : ∀ (l1 l2 : List DocSection),
    l1.Perm l2 → sortedBy secLe l1 → sortedBy secLe l2 →
    (l1.map DocSection.name).Nodup → l1 = l2
  | [], l2, hp, _, _, _ => (List.Perm.eq_nil hp.symm).symm
  | a :: t1, l2, hp, hs1, hs2, hn => by
    cases l2 with
    | nil => cases List.Perm.eq_nil hp
    | cons b t2 =>
      by_cases hab : a = b
      · subst hab
        have ht := hp.cons_inv
        have hrec := eq_of_perm_of_sortedName t1 t2 ht
          (List.pairwise_cons.1 hs1).2 (List.pairwise_cons.1 hs2).2 (List.nodup_cons.1 hn).2
        rw [hrec]
      · have hamem : a ∈ b :: t2 := (hp.mem_iff).1 (List.mem_cons_self a t1)
        have hat2 : a ∈ t2 := by
          rcases List.mem_cons.1 hamem with h | h
          · exact absurd h hab
          · exact h
        have hbmem : b ∈ a :: t1 := (hp.mem_iff).2 (List.mem_cons_self b t2)
        have hbt1 : b ∈ t1 := by
          rcases List.mem_cons.1 hbmem with h | h
          · exact absurd h.symm hab
          · exact h
        have h1 : secLe a b = true := (List.pairwise_cons.1 hs1).1 b hbt1
        have h2 : secLe b a = true := (List.pairwise_cons.1 hs2).1 a hat2
        have hname : a.name = b.name := strLe_antisymm _ _ h1 h2
        have hdup : a.name ∈ t1.map DocSection.name := List.mem_map.2 ⟨b, hbt1, hname.symm⟩
        exact absurd hdup (List.nodup_cons.1 hn).1

theorem mergeSort_secLe_eq {l1 l2 : List DocSection} (h : l1.Perm l2)
    (hn : (l1.map DocSection.name).Nodup) :
    l1.mergeSort secLe = l2.mergeSort secLe :=
  eq_of_perm_of_sortedName _ _
    ((l1.mergeSort_perm secLe).trans (h.trans (l2.mergeSort_perm secLe).symm))
    (List.sorted_mergeSort secLe_trans secLe_total l1)
    (List.sorted_mergeSort secLe_trans secLe_total l2)
    ((((l1.mergeSort_perm secLe).map DocSection.name).nodup_iff).2 hn)

theorem assocGet_updateAssoc_self (m : List (Str × α)) (k : Str) (d : α) (g : α → α) :
    assocGet (updateAssoc m k d g) k = some (g ((assocGet m k).getD d)) := by
  induction m with
  | nil => simp [updateAssoc, assocGet]
  | cons kv rest ih =>
    obtain ⟨k0, v⟩ := kv
    by_cases h : k0 = k
    · subst h
      simp [updateAssoc, assocGet]
    · simp [updateAssoc, assocGet, h, ih]

theorem assocGet_updateAssoc_other (m : List (Str × α)) (k : Str) (d : α) (g : α → α)
    (k' : Str) (h : k' ≠ k) :
    assocGet (updateAssoc m k d g) k' = assocGet m k' := by
  induction m with
  | nil => simp [updateAssoc, assocGet, Ne.symm h]
  | cons kv rest ih =>
    obtain ⟨k0, v⟩ := kv
    by_cases h0 : k0 = k
    · subst h0
      simp [updateAssoc, assocGet, Ne.symm h]
    · by_cases hq : k0 = k'
      · simp [updateAssoc, assocGet, h0, hq, h]
      · simp [updateAssoc, assocGet, h0, hq, ih]

theorem updateAssoc_keys (m : List (Str × α)) (k : Str) (d : α) (g : α → α) :
    (updateAssoc m k d g).map Prod.fst
      = if k ∈ m.map Prod.fst then m.map Prod.fst else m.map Prod.fst ++ [k] := by
  induction m with
  | nil => simp [updateAssoc]
  | cons kv rest ih =>
    obtain ⟨k0, v⟩ := kv
    by_cases h0 : k0 = k
    · subst h0
      rw [updateAssoc, if_pos rfl]
      simp only [List.map_cons]
      rw [if_pos (List.mem_cons_self _ _)]
    · by_cases hk : k ∈ rest.map Prod.fst
      · rw [updateAssoc, if_neg h0]
        simp only [List.map_cons, ih]
        rw [if_pos hk, if_pos (List.mem_cons_of_mem _ hk)]
      · rw [updateAssoc, if_neg h0]
        simp only [List.map_cons, ih]
        rw [if_neg hk, if_neg (fun hmem => by
          rcases List.mem_cons.1 hmem with h | h
          · exact h0 h.symm
          · exact hk h)]
        rfl

theorem updateAssoc_keys_nodup (m : List (Str × α)) (k : Str) (d : α) (g : α → α)
    (h : (m.map Prod.fst).Nodup) : ((updateAssoc m k d g).map Prod.fst).Nodup := by
  rw [updateAssoc_keys]
  by_cases hk : k ∈ m.map Prod.fst
  · rw [if_pos hk]
    exact h
  · rw [if_neg hk]
    rw [List.nodup_append]
    exact ⟨h, List.nodup_singleton _, fun a ha hb => hk ((List.mem_singleton.1 hb) ▸ ha)⟩

theorem updateAssoc_forall {P : α → Prop} : ∀ (m : List (Str × α)) (k : Str) (d : α)
    (g : α → α), (∀ kv ∈ m, P kv.2) → P (g d) → (∀ v, P v → P (g v)) →
    ∀ kv ∈ updateAssoc m k d g, P kv.2
  | [], k, d, g, _, hd, _ => by
    intro kv hkv
    simp only [updateAssoc, List.mem_singleton] at hkv
    subst hkv
    exact hd
  | (k0, v) :: rest, k, d, g, hm, hd, hg => by
    intro kv hkv
    by_cases h0 : k0 = k
    · subst h0
      rw [updateAssoc, if_pos rfl] at hkv
      rcases List.mem_cons.1 hkv with h | h
      · subst h
        exact hg v (hm (k0, v) (List.mem_cons_self _ _))
      · exact hm kv (List.mem_cons_of_mem _ h)
    · rw [updateAssoc, if_neg h0] at hkv
      rcases List.mem_cons.1 hkv with h | h
      · subst h
        exact hm (k0, v) (List.mem_cons_self _ _)
      · exact updateAssoc_forall rest k d g (fun kv2 h2 => hm kv2 (List.mem_cons_of_mem _ h2))
          hd hg kv h

theorem assocGet_some_mem : ∀ {m : List (Str × α)} {k : Str} {v : α},
    assocGet m k = some v → (k, v) ∈ m
  | [], k, v, h => by simp [assocGet] at h
  | (k0, v0) :: rest, k, v, h => by
    by_cases h0 : k0 = k
    · subst h0
      rw [assocGet, if_pos rfl] at h
      injection h with h
      subst h
      exact List.mem_cons_self _ _
    · rw [assocGet, if_neg h0] at h
      exact List.mem_cons_of_mem _ (assocGet_some_mem h)

theorem assocGet_eq_none_iff : ∀ (m : List (Str × α)) (k : Str),
    assocGet m k = none ↔ k ∉ m.map Prod.fst
  | [], k => by simp [assocGet]
  | (k0, v0) :: rest, k => by
    by_cases h0 : k0 = k
    · subst h0
      rw [assocGet, if_pos rfl]
      simp only [List.map_cons, List.mem_cons]
      constructor
      · intro h
        cases h
      · intro hnm
        exact absurd (Or.inl trivial) hnm
    · rw [assocGet, if_neg h0, assocGet_eq_none_iff rest k]
      simp only [List.map_cons, List.mem_cons]
      constructor
      · intro hnone hmem
        rcases hmem with h | h
        · exact h0 h.symm
        · exact hnone h
      · intro hnm hmem
        exact hnm (Or.inr hmem)

theorem assocGet_append_of_some {xs : List (Str × α)} {k : Str} {v : α} (ys : List (Str × α))
    (h : assocGet xs k = some v) : assocGet (xs ++ ys) k = some v := by
  induction xs with
  | nil => simp [assocGet] at h
  | cons kv rest ih =>
    obtain ⟨k0, v0⟩ := kv
    by_cases h0 : k0 = k
    · subst h0
      rw [assocGet, if_pos rfl] at h
      rw [List.cons_append, assocGet, if_pos rfl]
      exact h
    · rw [assocGet, if_neg h0] at h
      rw [List.cons_append, assocGet, if_neg h0]
      exact ih h

theorem assocGet_append_of_none {xs : List (Str × α)} {k : Str} (ys : List (Str × α))
    (h : assocGet xs k = none) : assocGet (xs ++ ys) k = assocGet ys k := by
  induction xs with
  | nil => rfl
  | cons kv rest ih =>
    obtain ⟨k0, v0⟩ := kv
    by_cases h0 : k0 = k
    · subst h0
      rw [assocGet, if_pos rfl] at h
      cases h
    · rw [assocGet, if_neg h0] at h
      rw [List.cons_append, assocGet, if_neg h0]
      exact ih h

theorem optRel_refl {R : α → α → Prop} (hrefl : ∀ a, R a a) : ∀ o, optRel R o o
  | none => True.intro
  | some a => hrefl a

theorem optRel_trans {R : α → α → Prop} (htr : ∀ a b c, R a b → R b c → R a c) :
    ∀ o1 o2 o3, optRel R o1 o2 → optRel R o2 o3 → optRel R o1 o3
  | none, none, none, _, _ => True.intro
  | some _, some _, some _, h1, h2 => htr _ _ _ h1 h2
  | none, some _, _, h1, _ => h1.elim
  | some _, none, _, h1, _ => h1.elim
  | none, none, some _, _, h2 => h2.elim
  | some _, some _, none, _, h2 => h2.elim

theorem mapEquiv_refl {R : α → α → Prop} (hrefl : ∀ a, R a a) (m : List (Str × α)) :
    mapEquiv R m m := fun _ => optRel_refl hrefl _

theorem mapEquiv_trans {R : α → α → Prop} (htr : ∀ a b c, R a b → R b c → R a c)
    {m1 m2 m3 : List (Str × α)} (h1 : mapEquiv R m1 m2) (h2 : mapEquiv R m2 m3) :
    mapEquiv R m1 m3 := fun k => optRel_trans htr _ _ _ (h1 k) (h2 k)

theorem subEquiv_refl (p : PreSub) : subEquiv p p :=
  ⟨List.Perm.refl _, mapEquiv_refl (fun l => List.Perm.refl l) _⟩

theorem subEquiv_trans {p q r : PreSub} (h1 : subEquiv p q) (h2 : subEquiv q r) :
    subEquiv p r :=
  ⟨h1.1.trans h2.1, mapEquiv_trans (fun _ _ _ ha hb => ha.trans hb) h1.2 h2.2⟩

theorem secEquiv_refl (p : PreSec) : secEquiv p p :=
  ⟨List.Perm.refl _, mapEquiv_refl subEquiv_refl _⟩

theorem secEquiv_trans {p q r : PreSec} (h1 : secEquiv p q) (h2 : secEquiv q r) :
    secEquiv p r :=
  ⟨h1.1.trans h2.1,
    mapEquiv_trans (R := subEquiv) (fun _ _ _ ha hb => subEquiv_trans ha hb) h1.2 h2.2⟩

theorem mapEquiv_updateAssoc {R : α → α → Prop} {m1 m2 : List (Str × α)}
    (h : mapEquiv R m1 m2) (k : Str) (d : α) (g : α → α)
    (hg : ∀ a b, R a b → R (g a) (g b)) (hd : R d d) :
    mapEquiv R (updateAssoc m1 k d g) (updateAssoc m2 k d g) := by
  intro k'
  by_cases hk : k' = k
  · subst hk
    rw [assocGet_updateAssoc_self, assocGet_updateAssoc_self]
    have hrel := h k'
    cases h1 : assocGet m1 k' <;> cases h2 : assocGet m2 k' <;> rw [h1, h2] at hrel
    · exact hg _ _ hd
    · exact hrel.elim
    · exact hrel.elim
    · exact hg _ _ hrel
  · rw [assocGet_updateAssoc_other _ _ _ _ _ hk, assocGet_updateAssoc_other _ _ _ _ _ hk]
    exact h k'

theorem mapEquiv_updateAssoc_comm {R : α → α → Prop} (hrefl : ∀ a, R a a)
    (m : List (Str × α)) (k1 k2 : Str) (d : α) (g1 g2 : α → α)
    (hcomm : ∀ v, R (g2 (g1 v)) (g1 (g2 v))) :
    mapEquiv R (updateAssoc (updateAssoc m k1 d g1) k2 d g2)
      (updateAssoc (updateAssoc m k2 d g2) k1 d g1) := by
  intro k'
  by_cases h2 : k' = k2
  · subst h2
    by_cases h1 : k' = k1
    · subst h1
      rw [assocGet_updateAssoc_self, assocGet_updateAssoc_self,
        assocGet_updateAssoc_self, assocGet_updateAssoc_self]
      simp only [Option.getD_some]
      exact hcomm _
    · have hL : assocGet (updateAssoc (updateAssoc m k1 d g1) k' d g2) k'
          = some (g2 ((assocGet m k').getD d)) := by
        rw [assocGet_updateAssoc_self, assocGet_updateAssoc_other _ _ _ _ _ h1]
      have hR : assocGet (updateAssoc (updateAssoc m k' d g2) k1 d g1) k'
          = some (g2 ((assocGet m k').getD d)) := by
        rw [assocGet_updateAssoc_other _ _ _ _ _ h1, assocGet_updateAssoc_self]
      rw [hL, hR]
      exact hrefl _
  · by_cases h1 : k' = k1
    · subst h1
      have hL : assocGet (updateAssoc (updateAssoc m k' d g1) k2 d g2) k'
          = some (g1 ((assocGet m k').getD d)) := by
        rw [assocGet_updateAssoc_other _ _ _ _ _ h2, assocGet_updateAssoc_self]
      have hR : assocGet (updateAssoc (updateAssoc m k2 d g2) k' d g1) k'
          = some (g1 ((assocGet m k').getD d)) := by
        rw [assocGet_updateAssoc_self, assocGet_updateAssoc_other _ _ _ _ _ h2]
      rw [hL, hR]
      exact hrefl _
    · rw [assocGet_updateAssoc_other _ _ _ _ _ h2, assocGet_updateAssoc_other _ _ _ _ _ h1,
        assocGet_updateAssoc_other _ _ _ _ _ h1, assocGet_updateAssoc_other _ _ _ _ _ h2]
      exact optRel_refl hrefl _

theorem append_pair_swap (l : List α) (x y : α) :
    ((l ++ [x]) ++ [y]).Perm ((l ++ [y]) ++ [x]) := by
  rw [List.append_assoc, List.append_assoc]
  exact List.Perm.append_left l (List.Perm.swap y x [])

theorem secAdd_equiv {p q : PreSec} (h : secEquiv p q) (f : DocFile) :
    secEquiv (secAdd p f) (secAdd q f) := by
  obtain ⟨hf, hs⟩ := h
  rcases hsp : splitOnChar '/' f.relativePath with _ | ⟨a, _ | ⟨b, _ | ⟨c2, _ | ⟨d2, t4⟩⟩⟩⟩
  · simp only [secAdd, hsp]
    exact ⟨hf, hs⟩
  · simp only [secAdd, hsp]
    exact ⟨hf.append_right _, hs⟩
  · simp only [secAdd, hsp]
    exact ⟨hf.append_right _, hs⟩
  · simp only [secAdd, hsp]
    refine ⟨hf, mapEquiv_updateAssoc hs b emptyPreSub _ ?_ (subEquiv_refl _)⟩
    intro s1 s2 hss
    exact ⟨hss.1.append_right _, hss.2⟩
  · simp only [secAdd, hsp]
    refine ⟨hf, mapEquiv_updateAssoc hs b emptyPreSub _ ?_ (subEquiv_refl _)⟩
    intro s1 s2 hss
    refine ⟨hss.1, mapEquiv_updateAssoc hss.2 c2 [] _ ?_ (List.Perm.refl _)⟩
    intro l1 l2 hl
    exact hl.append_right _

theorem secAdd_comm (v : PreSec) (f g : DocFile) :
    secEquiv (secAdd (secAdd v f) g) (secAdd (secAdd v g) f) := by
  rcases hf : splitOnChar '/' f.relativePath with _ | ⟨a, _ | ⟨b, _ | ⟨c2, _ | ⟨d2, t4⟩⟩⟩⟩ <;>
    rcases hg : splitOnChar '/' g.relativePath with _ | ⟨a2, _ | ⟨b2, _ | ⟨c3, _ | ⟨d3, t5⟩⟩⟩⟩ <;>
    simp only [secAdd, hf, hg] <;>
    first
      | exact secEquiv_refl _
      | exact ⟨append_pair_swap _ _ _, mapEquiv_refl subEquiv_refl _⟩
      | exact ⟨List.Perm.refl _, mapEquiv_updateAssoc_comm subEquiv_refl _ _ _ _ _ _
          (fun s => ⟨append_pair_swap _ _ _, mapEquiv_refl (fun l => List.Perm.refl l) _⟩)⟩
      | exact ⟨List.Perm.refl _, mapEquiv_updateAssoc_comm subEquiv_refl _ _ _ _ _ _
          (fun s => subEquiv_refl _)⟩
      | exact ⟨List.Perm.refl _, mapEquiv_updateAssoc_comm subEquiv_refl _ _ _ _ _ _
          (fun s => ⟨List.Perm.refl _, mapEquiv_updateAssoc_comm (fun l => List.Perm.refl l)
            _ _ _ _ _ _ (fun l => append_pair_swap _ _ _)⟩)⟩

theorem insertDocFile_equiv {m1 m2 : List (Str × PreSec)} (h : mapEquiv secEquiv m1 m2)
    (f : DocFile) : mapEquiv secEquiv (insertDocFile m1 f) (insertDocFile m2 f) :=
  mapEquiv_updateAssoc h (topKey f) emptyPreSec _
    (fun _ _ hab => secAdd_equiv hab f) (secEquiv_refl _)

theorem insertDocFile_comm (m : List (Str × PreSec)) (f g : DocFile) :
    mapEquiv secEquiv (insertDocFile (insertDocFile m f) g)
      (insertDocFile (insertDocFile m g) f) :=
  mapEquiv_updateAssoc_comm secEquiv_refl m (topKey f) (topKey g) emptyPreSec _ _
    (fun v => secAdd_comm v f g)

theorem foldl_insert_equiv : ∀ (l : List DocFile) {m1 m2 : List (Str × PreSec)},
    mapEquiv secEquiv m1 m2 →
    mapEquiv secEquiv (l.foldl insertDocFile m1) (l.foldl insertDocFile m2)
  | [], _, _, h => h
  | f :: rest, _, _, h => foldl_insert_equiv rest (insertDocFile_equiv h f)

theorem foldl_insert_perm {l1 l2 : List DocFile} (hp : l1.Perm l2) :
    ∀ {m1 m2 : List (Str × PreSec)}, mapEquiv secEquiv m1 m2 →
    mapEquiv secEquiv (l1.foldl insertDocFile m1) (l2.foldl insertDocFile m2) := by
  induction hp with
  | nil =>
    intro m1 m2 h
    exact h
  | cons x _ ih =>
    intro m1 m2 h
    exact ih (insertDocFile_equiv h x)
  | swap x y l =>
    intro m1 m2 h
    refine foldl_insert_equiv l ?_
    exact mapEquiv_trans (R := secEquiv) (fun _ _ _ ha hb => secEquiv_trans ha hb)
      (insertDocFile_equiv (insertDocFile_equiv h y) x) (insertDocFile_comm m2 y x)
  | trans _ _ ih1 ih2 =>
    intro m1 m2 h
    exact mapEquiv_trans (R := secEquiv) (fun _ _ _ ha hb => secEquiv_trans ha hb)
      (ih1 h) (ih2 (mapEquiv_refl secEquiv_refl m2))

theorem emptyPreSec_wf : secWF emptyPreSec := by
  refine ⟨List.nodup_nil, ?_⟩
  intro kv h
  cases h

theorem secAdd_wf {p : PreSec} (h : secWF p) (f : DocFile) : secWF (secAdd p f) := by
  rcases hsp : splitOnChar '/' f.relativePath with _ | ⟨a, _ | ⟨b, _ | ⟨c2, _ | ⟨d2, t4⟩⟩⟩⟩ <;>
    simp only [secAdd, hsp]
  · exact h
  · exact h
  · exact h
  · exact ⟨updateAssoc_keys_nodup _ _ _ _ h.1,
      updateAssoc_forall _ _ _ _ h.2 List.nodup_nil (fun v hv => hv)⟩
  · exact ⟨updateAssoc_keys_nodup _ _ _ _ h.1,
      updateAssoc_forall _ _ _ _ h.2 (updateAssoc_keys_nodup _ _ _ _ List.nodup_nil)
        (fun v hv => updateAssoc_keys_nodup _ _ _ _ hv)⟩

theorem insertDocFile_wf {m : List (Str × PreSec)} (h : secsWF m) (f : DocFile) :
    secsWF (insertDocFile m f) :=
  ⟨updateAssoc_keys_nodup _ _ _ _ h.1,
    updateAssoc_forall _ _ _ _ h.2 (secAdd_wf emptyPreSec_wf f) (fun _ hv => secAdd_wf hv f)⟩

theorem foldl_insert_wf : ∀ (l : List DocFile) {m : List (Str × PreSec)},
    secsWF m → secsWF (l.foldl insertDocFile m)
  | [], _, h => h
  | f :: rest, _, h => foldl_insert_wf rest (insertDocFile_wf h f)

theorem mapEquiv_map_perm {R : α → α → Prop} {W : α → Prop} (F : Str × α → β) :
    ∀ (m1 m2 : List (Str × α)),
    mapEquiv R m1 m2 → (m1.map Prod.fst).Nodup → (m2.map Prod.fst).Nodup →
    (∀ kv ∈ m1, W kv.2) → (∀ kv ∈ m2, W kv.2) →
    (∀ k v1 v2, W v1 → W v2 → R v1 v2 → F (k, v1) = F (k, v2)) →
    (m1.map F).Perm (m2.map F)
  | [], m2, h, _, _, _, _, _ => by
    cases m2 with
    | nil => exact List.Perm.refl _
    | cons kv rest =>
      obtain ⟨k0, v0⟩ := kv
      have h0 := h k0
      rw [show assocGet ([] : List (Str × α)) k0 = none from rfl,
        show assocGet ((k0, v0) :: rest) k0 = some v0 from by rw [assocGet, if_pos rfl]] at h0
      exact h0.elim
  | (k0, v) :: rest, m2, h, hn1, hn2, hW1, hW2, hcongr => by
    have hn1c : (k0 :: rest.map Prod.fst).Nodup := hn1
    have h0 := h k0
    rw [show assocGet ((k0, v) :: rest) k0 = some v from by rw [assocGet, if_pos rfl]] at h0
    cases he : assocGet m2 k0 with
    | none =>
      rw [he] at h0
      exact h0.elim
    | some w =>
      rw [he] at h0
      obtain ⟨pre, post, rfl⟩ := List.append_of_mem (assocGet_some_mem he)
      have hn2c : (k0 :: (pre ++ post).map Prod.fst).Nodup := by
        rw [List.map_append, List.map_cons] at hn2
        have hmid := List.nodup_middle.1 hn2
        rw [← List.map_append] at hmid
        exact hmid
      have hk0_rest : k0 ∉ rest.map Prod.fst := (List.nodup_cons.1 hn1c).1
      have hk0_pp : k0 ∉ (pre ++ post).map Prod.fst := (List.nodup_cons.1 hn2c).1
      have hrec : mapEquiv R rest (pre ++ post) := by
        intro k
        by_cases hk : k = k0
        · subst hk
          rw [(assocGet_eq_none_iff rest k).2 hk0_rest,
            (assocGet_eq_none_iff (pre ++ post) k).2 hk0_pp]
          exact True.intro
        · have hres := h k
          have e1 : assocGet ((k0, v) :: rest) k = assocGet rest k := by
            rw [assocGet, if_neg (fun hh => hk hh.symm)]
          have e2 : assocGet (pre ++ (k0, w) :: post) k = assocGet (pre ++ post) k := by
            cases hp : assocGet pre k with
            | some u =>
              rw [assocGet_append_of_some _ hp, assocGet_append_of_some _ hp]
            | none =>
              rw [assocGet_append_of_none _ hp, assocGet_append_of_none _ hp]
              rw [assocGet, if_neg (fun hh => hk hh.symm)]
          rw [e1, e2] at hres
          exact hres
      have hWpp : ∀ kv ∈ pre ++ post, W kv.2 := by
        intro kv hkv
        rcases List.mem_append.1 hkv with hm | hm
        · exact hW2 kv (List.mem_append.2 (Or.inl hm))
        · exact hW2 kv (List.mem_append.2 (Or.inr (List.mem_cons_of_mem _ hm)))
      have hper : (rest.map F).Perm ((pre ++ post).map F) :=
        mapEquiv_map_perm F rest (pre ++ post) hrec (List.nodup_cons.1 hn1c).2
          (List.nodup_cons.1 hn2c).2 (fun kv hkv => hW1 kv (List.mem_cons_of_mem _ hkv))
          hWpp hcongr
      have hFvw : F (k0, v) = F (k0, w) :=
        hcongr k0 v w (hW1 (k0, v) (List.mem_cons_self _ _))
          (hW2 (k0, w) (List.mem_append.2 (Or.inr (List.mem_cons_self _ _)))) h0
      have step1 : ((k0, v) :: rest).map F = F (k0, w) :: rest.map F := by
        simp only [List.map_cons, hFvw]
      have step3 : (pre ++ (k0, w) :: post).map F = pre.map F ++ F (k0, w) :: post.map F := by
        rw [List.map_append, List.map_cons]
      rw [step1, step3]
      refine List.Perm.trans (hper.cons _) ?_
      have step4 := (@List.perm_middle _ (F (k0, w)) (pre.map F) (post.map F)).symm
      rw [← List.map_append] at step4
      exact step4

theorem map_name_eq_keys (m : List (Str × α)) (F : Str × α → DocSection)
    (hF : ∀ kv, (F kv).name = kv.1) :
    (m.map F).map DocSection.name = m.map Prod.fst := by
  induction m with
  | nil => rfl
  | cons kv rest ih => simp only [List.map_cons, hF, ih]

theorem assocSorted_eq {R : α → α → Prop} {W : α → Prop} (F : Str × α → DocSection)
    (hF : ∀ kv, (F kv).name = kv.1) {m1 m2 : List (Str × α)}
    (h : mapEquiv R m1 m2) (hn1 : (m1.map Prod.fst).Nodup) (hn2 : (m2.map Prod.fst).Nodup)
    (hW1 : ∀ kv ∈ m1, W kv.2) (hW2 : ∀ kv ∈ m2, W kv.2)
    (hcongr : ∀ k v1 v2, W v1 → W v2 → R v1 v2 → F (k, v1) = F (k, v2)) :
    (m1.map F).mergeSort secLe = (m2.map F).mergeSort secLe :=
  mergeSort_secLe_eq (mapEquiv_map_perm F m1 m2 h hn1 hn2 hW1 hW2 hcongr)
    (by rw [map_name_eq_keys m1 F hF]; exact hn1)

theorem subsubToSection_congr (k : Str) {v1 v2 : List DocFile} (h : v1.Perm v2) :
    subsubToSection (k, v1) = subsubToSection (k, v2) := by
  simp only [subsubToSection]
  rw [mergeSort_fileLe_eq h]

theorem subToSection_congr (k : Str) {v1 v2 : PreSub} (h : subEquiv v1 v2)
    (w1 : subWF v1) (w2 : subWF v2) : subToSection (k, v1) = subToSection (k, v2) := by
  simp only [subToSection]
  rw [mergeSort_fileLe_eq h.1,
    assocSorted_eq (W := fun _ => True) subsubToSection (fun kv => rfl) h.2 w1 w2
      (fun kv _ => trivial) (fun kv _ => trivial)
      (fun k2 l1 l2 _ _ hp => subsubToSection_congr k2 hp)]

theorem secToSection_congr (k : Str) {v1 v2 : PreSec} (h : secEquiv v1 v2)
    (w1 : secWF v1) (w2 : secWF v2) : secToSection (k, v1) = secToSection (k, v2) := by
  simp only [secToSection]
  rw [mergeSort_fileLe_eq h.1,
    assocSorted_eq subToSection (fun kv => rfl) h.2 w1.1 w2.1 w1.2 w2.2
      (fun k2 s1 s2 hw1 hw2 hss => subToSection_congr k2 hss hw1 hw2)]

/-- C7: buildDocTree is deterministic and permutation-invariant — permuting
the input file list leaves the output tree identical, order included — and
every level of the output is sorted: sections, subsections and
sub-subsections ascending by name, file lists ascending by relative path. -/
theorem build_doc_tree_perm_invariant :
    (∀ (files1 files2 : List DocFile), files1.Perm files2 →
      buildDocTree files1 = buildDocTree files2)
    ∧ (∀ files : List DocFile, treeSorted (buildDocTree files)) := by
  constructor
  · intro files1 files2 hp
    have hm : mapEquiv secEquiv (files1.foldl insertDocFile [])
        (files2.foldl insertDocFile []) :=
      foldl_insert_perm hp (mapEquiv_refl secEquiv_refl [])
    have hw1 : secsWF (files1.foldl insertDocFile []) :=
      foldl_insert_wf files1 ⟨List.nodup_nil, fun kv h => absurd h (List.not_mem_nil kv)⟩
    have hw2 : secsWF (files2.foldl insertDocFile []) :=
      foldl_insert_wf files2 ⟨List.nodup_nil, fun kv h => absurd h (List.not_mem_nil kv)⟩
    show ((files1.foldl insertDocFile []).map secToSection).mergeSort secLe
      = ((files2.foldl insertDocFile []).map secToSection).mergeSort secLe
    exact assocSorted_eq secToSection (fun kv => rfl) hm hw1.1 hw2.1 hw1.2 hw2.2
      (fun k s1 s2 hwa hwb hss => secToSection_congr k hss hwa hwb)
  · intro files
    constructor
    · exact List.sorted_mergeSort secLe_trans secLe_total _
    · intro s hs
      have hs2 : s ∈ (files.foldl insertDocFile []).map secToSection :=
        List.mem_mergeSort.1 hs
      obtain ⟨kv, hkv, rfl⟩ := List.mem_map.1 hs2
      refine ⟨List.sorted_mergeSort fileLe_trans fileLe_total _,
        List.sorted_mergeSort secLe_trans secLe_total _, ?_⟩
      intro t ht
      have ht2 : t ∈ kv.2.subs.map subToSection := List.mem_mergeSort.1 ht
      obtain ⟨skv, hskv, rfl⟩ := List.mem_map.1 ht2
      refine ⟨List.sorted_mergeSort fileLe_trans fileLe_total _,
        List.sorted_mergeSort secLe_trans secLe_total _, ?_⟩
      intro u hu
      have hu2 : u ∈ skv.2.subsubs.map subsubToSection := List.mem_mergeSort.1 hu
      obtain ⟨tkv, htkv, rfl⟩ := List.mem_map.1 hu2
      exact List.sorted_mergeSort fileLe_trans fileLe_total _

/-- Witness for C7 on a concrete three-file permutation pair. -/
theorem build_doc_tree_perm_witness :
    buildDocTree [⟨"b/x.md".toList⟩, ⟨"a/y.md".toList⟩, ⟨"a.md".toList⟩]
      = buildDocTree [⟨"a.md".toList⟩, ⟨"a/y.md".toList⟩, ⟨"b/x.md".toList⟩]
      ∧ treeSorted (buildDocTree [⟨"b/x.md".toList⟩, ⟨"a/y.md".toList⟩, ⟨"a.md".toList⟩]) :=
  ⟨build_doc_tree_perm_invariant.1 _ _ (by decide),
   build_doc_tree_perm_invariant.2 _⟩
